import Mathlib

/-!
# Verification of the sudoku generator/solver (`src/sudoku.cpp`)

Shallow embedding of the core of the program: the grid container with its
constraint queries, the generation pipeline (diagonal seeding, internal
solve, digit removal), and the two backtracking searches (`solveBoard`,
the private generation-time solver, and `bruteForceSolver`, the injected
default strategy).

Modelling conventions:
* A board is a list of rows of naturals, 0 meaning empty, exactly the
  `vector<vector<int>>` of the source restricted to the nonnegative values
  the program ever stores.  Out-of-range reads return 0 and out-of-range
  writes are no-ops; the source's behaviour there is undefined
  (`vector::operator[]` out of bounds) and never reached from the entry
  points for conforming dimensions.
* Both recursive searches are given an explicit fuel argument so that the
  definitions stay kernel-executable; termination of the source recursion
  is then a theorem (fuel sufficiency), not an assumption.
* Randomness (the two `shuffle` calls) is passed in as data: the
  permutations used to fill the diagonal boxes, and the shuffled list of
  coordinates used by `removeDigits`.
* The visualization callback and the animation delays are pure side
  channels with no influence on state; they are dropped.
* `SState.attempts` is ghost instrumentation, not a field of the source:
  it counts writes of a candidate digit (placement attempts) so that
  claims about the step counter can be stated.  `SState.steps` mirrors the
  source's `steps` member exactly.
-/

/-- A board: rows of cells, `0` = empty (`vector<vector<int>> board`). -/
abbrev Board : Type := List (List Nat)

/-- Read `board[r][c]`; 0 when out of range (out-of-range access is UB in
the source and unreachable from the entry points). -/
def getCell (b : Board) (r c : Nat) : Nat :=
  (b.getD r []).getD c 0

/-- Write `board[r][c] = v`; no-op when out of range. -/
def setCell (b : Board) (r c v : Nat) : Board :=
  b.set r ((b.getD r []).set c v)

/-- Row-major list of all `(row, col)` pairs of an `n × n` grid, in the
order the source's nested `for` loops visit them. -/
def allPositions (n : Nat) : List (Nat × Nat) :=
  (List.range n).flatMap (fun i => (List.range n).map (fun j => (i, j)))

/-- Number of empty (zero) in-range cells. -/
def countZeros (n : Nat) (b : Board) : Nat :=
  ((allPositions n).filter (fun p => getCell b p.1 p.2 == 0)).length

/-- `isValidInRow`: `num` does not occur in row `row` (the source scans the
whole row with `std::find`). -/
def isValidInRow (b : Board) (row num : Nat) : Bool :=
  !((b.getD row []).contains num)

/-- `isValidInColumn`: `num` does not occur in column `col`. -/
def isValidInColumn (n : Nat) (b : Board) (col num : Nat) : Bool :=
  (List.range n).all (fun i => getCell b i col != num)

/-- `isValidInBox`: `num` does not occur in the `boxSize × boxSize` box
containing `(row, col)`, whose corner is `(row - row % bs, col - col % bs)`. -/
def isValidInBox (bs : Nat) (b : Board) (row col num : Nat) : Bool :=
  (List.range bs).all (fun i =>
    (List.range bs).all (fun j =>
      getCell b (row - row % bs + i) (col - col % bs + j) != num))

/-- `isValidPlacement`: conjunction of the row, column and box checks. -/
def isValidPlacement (n bs : Nat) (b : Board) (row col num : Nat) : Bool :=
  isValidInRow b row num && isValidInColumn n b col num && isValidInBox bs b row col num

/-- `findEmptyCell`: first cell holding 0 in row-major order, if any. -/
def findEmptyCell (n : Nat) (b : Board) : Option (Nat × Nat) :=
  (allPositions n).find? (fun p => getCell b p.1 p.2 == 0)

/-- State threaded through `bruteForceSolver`: the shared board and the
session's `steps` counter.  `attempts` is a ghost counter of placement
attempts (writes of a candidate digit), used only to state claims. -/
structure SState where
  board : Board
  steps : Nat
  attempts : Nat
deriving DecidableEq, Repr

/-- The candidate loop of `bruteForceSolver.backtrack` (`for num = 1 ..
size`): try each number; on a valid one place it, recurse through `f` (the
descent into the next cell), and undo the placement if the recursion
fails.  `f` is the recursive call `backtrack(row, col + 1)`. -/
def tryNums (f : SState → Option (Bool × SState)) (n bs r c : Nat) :
    List Nat → SState → Option (Bool × SState)
  | [], st => some (false, st)
  | num :: rest, st =>
    if isValidPlacement n bs st.board r c num then
      match f ⟨setCell st.board r c num, st.steps, st.attempts + 1⟩ with
      | none => none
      | some (true, st2) => some (true, st2)
      | some (false, st2) =>
        tryNums f n bs r c rest ⟨setCell st2.board r c 0, st2.steps, st2.attempts⟩
    else tryNums f n bs r c rest st

/-- The lambda `backtrack` of `bruteForceSolver`, with fuel.  Each
invocation first increments `steps` (`sudoku.getSteps()++`), then: past the
last column it moves to the next row; past the last row it reports success;
a filled cell is skipped; an empty cell runs the candidate loop. -/
def backtrackF (n bs : Nat) : Nat → Nat → Nat → SState → Option (Bool × SState)
  | 0, _, _, _ => none
  | fuel + 1, r, c, st =>
    let st1 : SState := ⟨st.board, st.steps + 1, st.attempts⟩
    if c = n then backtrackF n bs fuel (r + 1) 0 st1
    else if r = n then some (true, st1)
    else if getCell st1.board r c ≠ 0 then backtrackF n bs fuel r (c + 1) st1
    else tryNums (fun st2 => backtrackF n bs fuel r (c + 1) st2) n bs r c (List.range' 1 n) st1

/-- Fuel bound for `backtrackF`: strictly more than the depth of the
recursion from any reachable `(r, c)`. -/
def btFuel (n : Nat) : Nat := (n + 1) * (n + 3)

/-- `bruteForceSolver` entry: `backtrack(0, 0)` with sufficient fuel. -/
def backtrackRun (n bs : Nat) (st : SState) : Option (Bool × SState) :=
  backtrackF n bs (btFuel n) 0 0 st

/-- The candidate loop of the private `solveBoard` (`for num = 1 ..
size`), identical in shape to `tryNums` but without the step counter.
`f` is the recursive call `solveBoard(targetBoard)`. -/
def sbLoop (f : Board → Option (Bool × Board)) (n bs r c : Nat) :
    List Nat → Board → Option (Bool × Board)
  | [], b => some (false, b)
  | num :: rest, b =>
    if isValidPlacement n bs b r c num then
      match f (setCell b r c num) with
      | none => none
      | some (true, b2) => some (true, b2)
      | some (false, b2) => sbLoop f n bs r c rest (setCell b2 r c 0)
    else sbLoop f n bs r c rest b

/-- The private `solveBoard`, with fuel: look for the first empty cell;
none means the board is complete; otherwise run the candidate loop there.
(The source's `board = targetBoard` on success is a self-assignment, since
generation passes `board` itself.) -/
def solveBoardF (n bs : Nat) : Nat → Board → Option (Bool × Board)
  | 0, _ => none
  | fuel + 1, b =>
    match findEmptyCell n b with
    | none => some (true, b)
    | some (r, c) => sbLoop (fun b2 => solveBoardF n bs fuel b2) n bs r c (List.range' 1 n) b

/-- `solveBoard` with sufficient fuel (one more than the number of empty
cells, the depth of its recursion). -/
def solveBoardRun (n bs : Nat) (b : Board) : Option (Bool × Board) :=
  solveBoardF n bs (countZeros n b + 1) b

/-- `createEmptyBoard`: an `n × n` board of zeros. -/
def createEmptyBoard (n : Nat) : Board :=
  List.replicate n (List.replicate n 0)

/-- `fillBox(startRow, startCol)`: write `numbers` (the shuffled 1..size,
passed in as data) into the `bs × bs` box at the given corner, row by row
(`numbers[index++]`). -/
def fillBox (bs : Nat) (b : Board) (startRow startCol : Nat) (numbers : List Nat) : Board :=
  (allPositions bs).foldl
    (fun acc ij => setCell acc (startRow + ij.1) (startCol + ij.2)
      (numbers.getD (ij.1 * bs + ij.2) 0)) b

/-- Number of iterations of `fillDiagonalBoxes`'s loop (`for i = 0; i <
size; i += boxSize`).  The source never terminates when `boxSize = 0`,
which cannot arise for a positive size; we model that case as zero
iterations. -/
def diagSteps (n bs : Nat) : Nat :=
  if bs = 0 then 0 else (n + bs - 1) / bs

/-- `fillDiagonalBoxes`: fill each diagonal box, the `k`-th with the `k`-th
supplied permutation. -/
def fillDiagonalBoxes (n bs : Nat) (b : Board) (perms : List (List Nat)) : Board :=
  (List.range (diagSteps n bs)).foldl
    (fun acc k => fillBox bs acc (k * bs) (k * bs) (perms.getD k [])) b

/-- `cellsToRemove = static_cast<int>(size * size * difficulty)`; for the
nonnegative difficulties at issue the C cast truncates toward zero, i.e.
takes the floor. -/
def cellsToRemove (n : Nat) (d : ℚ) : Nat :=
  (⌊(n * n : ℚ) * d⌋).toNat

/-- `removeDigits`: zero out the first `min(k, n²)` coordinates of the
shuffled coordinate list (passed in as data). -/
def removeDigits (b : Board) (shuffledCells : List (Nat × Nat)) (k : Nat) : Board :=
  (shuffledCells.take (min k shuffledCells.length)).foldl
    (fun acc p => setCell acc p.1 p.2 0) b

/-- The persistent fields of class `Sudoku` (the solver, a function value,
is handled by `solveEntry` below). -/
structure SudokuC where
  size : Nat
  boxSize : Nat
  board : Board
  solution : Board
  steps : Nat
deriving DecidableEq, Repr

/-- Integer square root by downward search, structurally recursive so that
it evaluates in the kernel: the largest `k ≤ bound` with `k * k ≤ n`. -/
def intSqrtAux (n : Nat) : Nat → Nat
  | 0 => 0
  | k + 1 => if (k + 1) * (k + 1) ≤ n then k + 1 else intSqrtAux n k

/-- `static_cast<int>(sqrt(boardSize))`: the truncated square root (for
the board sizes at issue the `double` computation is exact). -/
def intSqrt (n : Nat) : Nat := intSqrtAux n n

/-- The `Sudoku` constructor: derive `boxSize = sqrt(size)` (no validation
of any kind), start from the empty board, and run `generatePuzzle`
(diagonal seeding, full solve — its boolean result is discarded —,
snapshot of the solution, removal at the fixed default difficulty 0.7).
`none` can only arise from fuel exhaustion, which `sudokuInit_total`
rules out. -/
def sudokuInit (n : Nat) (perms : List (List Nat)) (shuffledCells : List (Nat × Nat)) :
    Option SudokuC :=
  let bs := intSqrt n
  let b1 := fillDiagonalBoxes n bs (createEmptyBoard n) perms
  match solveBoardRun n bs b1 with
  | none => none
  | some (_, b2) =>
    some ⟨n, bs, removeDigits b2 (shuffledCells) (cellsToRemove n (7 / 10)), b2, 0⟩

/-- `solve()`: throw `runtime_error("No solver function provided")` when no
solver was injected, otherwise run the injected strategy on the current
state (display and delays dropped). -/
def solveEntry (solver : Option (SState → Option (Bool × SState))) (st : SState) :
    Except String (Option (Bool × SState)) :=
  match solver with
  | none => Except.error "No solver function provided"
  | some f => Except.ok (f st)

/-! ## Specification-side predicates -/

/-- The board has conforming dimensions: `n` rows of `n` cells (the
representation invariant of `vector<vector<int>>(size, vector<int>(size))`). -/
def Dims (n : Nat) (b : Board) : Prop :=
  b.length = n ∧ ∀ row ∈ b, row.length = n

/-- Every cell value lies in `[0, n]` (the data-model invariant on cells). -/
def EntriesLE (n : Nat) (b : Board) : Prop :=
  ∀ r ∈ List.range n, ∀ c ∈ List.range n, getCell b r c ≤ n

/-- The values of row `r`. -/
def rowListB (n : Nat) (b : Board) (r : Nat) : List Nat :=
  (List.range n).map (fun c => getCell b r c)

/-- The values of column `c`. -/
def colListB (n : Nat) (b : Board) (c : Nat) : List Nat :=
  (List.range n).map (fun r => getCell b r c)

/-- The values of the box with box-coordinates `(p, q)` (rows `p*bs ..
p*bs+bs-1`, columns likewise). -/
def boxListB (bs : Nat) (b : Board) (p q : Nat) : List Nat :=
  (allPositions bs).map (fun ij => getCell b (p * bs + ij.1) (q * bs + ij.2))

/-- A solved grid: each row, column and box holds each value of `1..n`
exactly once (its value list is a permutation of `1..n`). -/
def SolvedGrid (n bs : Nat) (b : Board) : Prop :=
  (∀ r ∈ List.range n, List.Perm (rowListB n b r) (List.range' 1 n)) ∧
  (∀ c ∈ List.range n, List.Perm (colListB n b c) (List.range' 1 n)) ∧
  (∀ p ∈ List.range bs, ∀ q ∈ List.range bs, List.Perm (boxListB bs b p q) (List.range' 1 n))

/-- Valid partial state: no nonzero value occurs at two distinct cells of
one row, one column, or one box (box = equal `row / bs` and `col / bs`). -/
def NoRepeats (n bs : Nat) (b : Board) : Prop :=
  ∀ r1 ∈ List.range n, ∀ c1 ∈ List.range n, ∀ r2 ∈ List.range n, ∀ c2 ∈ List.range n,
    (r1, c1) ≠ (r2, c2) → getCell b r1 c1 ≠ 0 → getCell b r1 c1 = getCell b r2 c2 →
    (r1 = r2 ∨ c1 = c2 ∨ (r1 / bs = r2 / bs ∧ c1 / bs = c2 / bs)) → False

/-- `num` occurs somewhere in row `row`. -/
def occursInRow (n : Nat) (b : Board) (row num : Nat) : Prop :=
  ∃ c ∈ List.range n, getCell b row c = num

/-- `num` occurs somewhere in column `col`. -/
def occursInCol (n : Nat) (b : Board) (col num : Nat) : Prop :=
  ∃ r ∈ List.range n, getCell b r col = num

/-- `num` occurs somewhere in the box containing `(row, col)`, the box
spanning rows `[row - row % bs, row - row % bs + bs)` and the analogous
columns. -/
def occursInBox (bs : Nat) (b : Board) (row col num : Nat) : Prop :=
  ∃ i ∈ List.range bs, ∃ j ∈ List.range bs,
    getCell b (row - row % bs + i) (col - col % bs + j) = num

/-- `b2` agrees with `b` on every cell that is nonzero in `b`. -/
def BoardExtends (n : Nat) (b b2 : Board) : Prop :=
  ∀ r ∈ List.range n, ∀ c ∈ List.range n, getCell b r c ≠ 0 → getCell b2 r c = getCell b r c

/-- All cells strictly before `(r, c)` in row-major order are filled. -/
def earlierFilled (n : Nat) (b : Board) (r c : Nat) : Prop :=
  ∀ i ∈ List.range n, ∀ j ∈ List.range n, (i < r ∨ (i = r ∧ j < c)) → getCell b i j ≠ 0

/-- Every in-range cell is filled. -/
def FullBoard (n : Nat) (b : Board) : Prop :=
  ∀ i ∈ List.range n, ∀ j ∈ List.range n, getCell b i j ≠ 0

/-- Depth measure of the `backtrack` recursion from `(r, c)`. -/
def btMeasure (n r c : Nat) : Nat :=
  (n - r) * (n + 2) + (n + 1 - c)

instance (n : Nat) (b : Board) : Decidable (Dims n b) := by
  unfold Dims; infer_instance

instance (n : Nat) (b : Board) : Decidable (EntriesLE n b) := by
  unfold EntriesLE; infer_instance

instance (n bs : Nat) (b : Board) : Decidable (SolvedGrid n bs b) := by
  unfold SolvedGrid; infer_instance

instance (n bs : Nat) (b : Board) : Decidable (NoRepeats n bs b) := by
  unfold NoRepeats; infer_instance

instance (n : Nat) (b : Board) (row num : Nat) : Decidable (occursInRow n b row num) := by
  unfold occursInRow; infer_instance

instance (n : Nat) (b : Board) (col num : Nat) : Decidable (occursInCol n b col num) := by
  unfold occursInCol; infer_instance

instance (bs : Nat) (b : Board) (row col num : Nat) : Decidable (occursInBox bs b row col num) := by
  unfold occursInBox; infer_instance

instance (n : Nat) (b b2 : Board) : Decidable (BoardExtends n b b2) := by
  unfold BoardExtends; infer_instance

instance (n : Nat) (b : Board) (r c : Nat) : Decidable (earlierFilled n b r c) := by
  unfold earlierFilled; infer_instance

instance (n : Nat) (b : Board) : Decidable (FullBoard n b) := by
  unfold FullBoard; infer_instance

/-! ## Toolkit: `getD`/`set` on lists and cells -/

theorem listGetD_oob {α : Type} (d : α) : ∀ (l : List α) (i : Nat), l.length ≤ i → l.getD i d = d
  | [], _, _ => rfl
  | _ :: xs, i + 1, h => listGetD_oob d xs i (by simpa using h)

theorem listSet_oob {α : Type} : ∀ (l : List α) (i : Nat) (v : α), l.length ≤ i → l.set i v = l
  | [], _, _, _ => rfl
  | x :: xs, i + 1, v, h => by
    simp only [List.set]
    rw [listSet_oob xs i v (by simpa using h)]

theorem listGetD_set_eq {α : Type} (d : α) :
    ∀ (l : List α) (i : Nat) (v : α), i < l.length → (l.set i v).getD i d = v
  | _ :: _, 0, _, _ => rfl
  | x :: xs, i + 1, v, h => listGetD_set_eq d xs i v (by simpa using h)

theorem listGetD_set_ne {α : Type} (d : α) :
    ∀ (l : List α) (i j : Nat) (v : α), i ≠ j → (l.set i v).getD j d = l.getD j d
  | [], _, _, _, _ => rfl
  | x :: xs, 0, 0, v, h => absurd rfl h
  | x :: xs, 0, j + 1, v, _ => rfl
  | x :: xs, i + 1, 0, v, _ => rfl
  | x :: xs, i + 1, j + 1, v, h =>
    listGetD_set_ne d xs i j v (fun he => h (by simpa using he))

theorem listSet_getD_self {α : Type} (d : α) :
    ∀ (l : List α) (i : Nat), l.set i (l.getD i d) = l
  | [], _ => rfl
  | x :: xs, 0 => rfl
  | x :: xs, i + 1 => by
    simp only [List.set, List.getD_cons_succ]
    rw [listSet_getD_self d xs i]

theorem length_setCell (b : Board) (r c v : Nat) : (setCell b r c v).length = b.length := by
  simp [setCell]

theorem getCell_setCell_ne (b : Board) (r c v r2 c2 : Nat) (h : r2 ≠ r ∨ c2 ≠ c) :
    getCell (setCell b r c v) r2 c2 = getCell b r2 c2 := by
  unfold getCell setCell
  rcases eq_or_ne r2 r with rfl | hne
  · rcases h with h | h
    · exact absurd rfl h
    · by_cases hr : r2 < b.length
      · rw [listGetD_set_eq [] b r2 _ hr, listGetD_set_ne _ _ _ _ _ (fun e => h e.symm)]
      · rw [listSet_oob b r2 _ (Nat.le_of_not_lt hr)]
  · rw [listGetD_set_ne [] b r r2 _ (fun e => hne e.symm)]

theorem getCell_setCell_self (b : Board) (r c v : Nat)
    (hr : r < b.length) (hc : c < (b.getD r []).length) :
    getCell (setCell b r c v) r c = v := by
  unfold getCell setCell
  rw [listGetD_set_eq [] b r _ hr, listGetD_set_eq 0 _ c v (by simpa using hc)]

theorem setCell_setCell (b : Board) (r c v w : Nat) :
    setCell (setCell b r c v) r c w = setCell b r c w := by
  unfold setCell
  by_cases hr : r < b.length
  · rw [listGetD_set_eq [] b r _ hr, List.set_set, List.set_set]
  · have hb : ∀ X : List Nat, b.set r X = b := fun X => listSet_oob b r X (Nat.le_of_not_lt hr)
    simp only [hb]

theorem setCell_eq_self (b : Board) (r c : Nat) (hz : getCell b r c = 0) :
    setCell b r c 0 = b := by
  unfold getCell at hz
  unfold setCell
  rw [← hz, listSet_getD_self, listSet_getD_self]

theorem setCell_zero_cancel (b : Board) (r c v : Nat) (hz : getCell b r c = 0) :
    setCell (setCell b r c v) r c 0 = b := by
  rw [setCell_setCell, setCell_eq_self b r c hz]

theorem dims_rowLength {n : Nat} {b : Board} (h : Dims n b) {r : Nat} (hr : r < n) :
    (b.getD r []).length = n := by
  obtain ⟨hl, hrows⟩ := h
  have hlt : r < b.length := by omega
  have hg : b.getD r [] = b[r] := by
    simp [List.getD, List.getElem?_eq_getElem hlt]
  rw [hg]
  exact hrows _ (b.getElem_mem hlt)

theorem dims_setCell {n : Nat} {b : Board} (h : Dims n b) (r c v : Nat) :
    Dims n (setCell b r c v) := by
  by_cases hr : r < b.length
  · obtain ⟨hl, hrows⟩ := h
    refine ⟨by simpa [setCell] using hl, ?_⟩
    intro row hrow
    unfold setCell at hrow
    rcases List.mem_or_eq_of_mem_set hrow with hmem | rfl
    · exact hrows _ hmem
    · rw [List.length_set]
      have hg : b.getD r [] = b[r] := by
        simp [List.getD, List.getElem?_eq_getElem hr]
      rw [hg]
      exact hrows _ (b.getElem_mem hr)
  · unfold setCell
    rw [listSet_oob b r _ (Nat.le_of_not_lt hr)]
    exact h

theorem getCell_setCell_dims {n : Nat} {b : Board} (h : Dims n b) {r c : Nat} (v : Nat)
    (hr : r < n) (hc : c < n) : getCell (setCell b r c v) r c = v := by
  have hb : r < b.length := by
    have := h.1
    omega
  refine getCell_setCell_self b r c v hb ?_
  rw [dims_rowLength h hr]
  exact hc

/-! ## Toolkit: positions, `findEmptyCell`, `countZeros` -/

theorem mem_allPositions {n : Nat} {p : Nat × Nat} :
    p ∈ allPositions n ↔ p.1 < n ∧ p.2 < n := by
  unfold allPositions
  simp only [List.mem_flatMap, List.mem_map, List.mem_range]
  constructor
  · rintro ⟨i, hi, j, hj, rfl⟩
    exact ⟨hi, hj⟩
  · rintro ⟨h1, h2⟩
    exact ⟨p.1, h1, p.2, h2, rfl⟩

theorem nodup_allPositions (n : Nat) : (allPositions n).Nodup := by
  unfold allPositions
  rw [List.nodup_flatMap]
  constructor
  · intro i _
    exact (List.nodup_range n).map (fun a b h => by simpa using congrArg Prod.snd h)
  · refine List.Pairwise.imp ?_ (List.pairwise_lt_range n)
    intro i j hij
    intro p hp hq
    simp only [Function.onFun, List.mem_map] at hp hq
    obtain ⟨a, _, rfl⟩ := hp
    obtain ⟨b, _, he⟩ := hq
    have : i = j := by simpa using (congrArg Prod.fst he).symm
    omega

theorem length_allPositions (n : Nat) : (allPositions n).length = n * n := by
  unfold allPositions
  simp [List.length_flatMap, Function.comp_def, List.map_const']

theorem range_split {k n : Nat} (hk : k < n) :
    List.range n = List.range' 0 k ++ k :: List.range' (k + 1) (n - k - 1) := by
  rw [List.range_eq_range']
  have h1 : List.range' 0 k ++ List.range' (0 + 1 * k) (n - k) 1 = List.range' 0 (n - k + k) :=
    List.range'_append 0 k (n - k) 1
  simp only [Nat.zero_add, Nat.one_mul] at h1
  have h2 : n - k + k = n := by omega
  rw [h2] at h1
  rw [← h1]
  congr 1
  have h3 : n - k = (n - k - 1) + 1 := by omega
  rw [h3, List.range'_succ]
  simp

theorem allPositions_split {n r c : Nat} (hr : r < n) (hc : c < n) :
    ∃ pre post, allPositions n = pre ++ (r, c) :: post ∧
      ∀ p ∈ pre, p.1 < r ∨ (p.1 = r ∧ p.2 < c) := by
  have e1 : allPositions n =
      (List.range' 0 r ++ r :: List.range' (r + 1) (n - r - 1)).flatMap
        (fun i => (List.range n).map (fun j => (i, j))) :=
    congrArg (fun l => l.flatMap (fun i => (List.range n).map (fun j => (i, j))))
      (range_split hr)
  have e2 : (List.range n).map (fun j => (r, j)) =
      (List.range' 0 c).map (fun j => (r, j)) ++
        ((r, c) :: (List.range' (c + 1) (n - c - 1)).map (fun j => (r, j))) := by
    have := congrArg (fun l => l.map (fun j => (r, j))) (range_split hc)
    simpa using this
  rw [List.flatMap_append, List.flatMap_cons] at e1
  rw [e2] at e1
  refine ⟨(List.range' 0 r).flatMap (fun i => (List.range n).map (fun j => (i, j))) ++
    (List.range' 0 c).map (fun j => (r, j)),
    (List.range' (c + 1) (n - c - 1)).map (fun j => (r, j)) ++
      (List.range' (r + 1) (n - r - 1)).flatMap (fun i => (List.range n).map (fun j => (i, j))),
    by rw [e1]; simp, ?_⟩
  intro p hp
  rcases List.mem_append.mp hp with hp | hp
  · simp only [List.mem_flatMap, List.mem_map, List.mem_range'_1] at hp
    obtain ⟨i, hi, j, _, rfl⟩ := hp
    left
    omega
  · simp only [List.mem_map, List.mem_range'_1] at hp
    obtain ⟨j, hj, rfl⟩ := hp
    right
    exact ⟨rfl, by omega⟩

theorem findEmptyCell_eq_none_iff {n : Nat} {b : Board} :
    findEmptyCell n b = none ↔ FullBoard n b := by
  unfold findEmptyCell FullBoard
  rw [List.find?_eq_none]
  constructor
  · intro h i hi j hj hz
    have := h (i, j) (mem_allPositions.mpr ⟨by simpa using hi, by simpa using hj⟩)
    simp [hz] at this
  · intro h p hp
    obtain ⟨h1, h2⟩ := mem_allPositions.mp hp
    have := h p.1 (by simpa using h1) p.2 (by simpa using h2)
    simpa using this

theorem findEmptyCell_eq_first {n : Nat} {b : Board} {r c : Nat} (hr : r < n) (hc : c < n)
    (hz : getCell b r c = 0) (he : earlierFilled n b r c) :
    findEmptyCell n b = some (r, c) := by
  obtain ⟨pre, post, heq, hpre⟩ := allPositions_split hr hc
  unfold findEmptyCell
  rw [heq, List.find?_append]
  have h1 : (pre.find? fun p => getCell b p.1 p.2 == 0) = none := by
    rw [List.find?_eq_none]
    intro p hp
    have hmem : p ∈ allPositions n := by
      rw [heq]; exact List.mem_append_left _ hp
    obtain ⟨hp1, hp2⟩ := mem_allPositions.mp hmem
    have hnz := he p.1 (by simpa using hp1) p.2 (by simpa using hp2) (hpre p hp)
    simpa using hnz
  rw [h1]
  simp only [Option.none_or]
  exact List.find?_cons_of_pos _ (by simpa using hz)

theorem findEmptyCell_some {n : Nat} {b : Board} {r c : Nat}
    (h : findEmptyCell n b = some (r, c)) :
    r < n ∧ c < n ∧ getCell b r c = 0 := by
  unfold findEmptyCell at h
  have h1 := List.find?_some h
  have h2 := mem_allPositions.mp (List.mem_of_find?_eq_some h)
  exact ⟨h2.1, h2.2, by simpa using h1⟩

theorem length_filter_le_of_imp {α : Type} (p q : α → Bool) :
    ∀ l : List α, (∀ x ∈ l, q x = true → p x = true) →
      (l.filter q).length ≤ (l.filter p).length := by
  intro l
  induction l with
  | nil => intro _; simp
  | cons x xs ih =>
    intro h
    have hxs := ih (fun y hy => h y (List.mem_cons_of_mem x hy))
    by_cases hq : q x = true
    · have hp := h x (List.mem_cons_self x xs) hq
      simp [List.filter_cons, hq, hp]
      omega
    · simp only [List.filter_cons, hq, if_neg, Bool.false_eq_true]
      by_cases hp : p x = true <;> simp [hp] <;> omega

theorem length_filter_lt_of_imp {α : Type} (p q : α → Bool) :
    ∀ l : List α, (∀ x ∈ l, q x = true → p x = true) →
      ∀ a ∈ l, p a = true → q a = false →
      (l.filter q).length < (l.filter p).length := by
  intro l
  induction l with
  | nil => intro _ a ha; simp at ha
  | cons x xs ih =>
    intro h a ha hpa hqa
    have hxs := length_filter_le_of_imp p q xs (fun y hy => h y (List.mem_cons_of_mem x hy))
    rcases List.mem_cons.mp ha with rfl | hmem
    · simp [List.filter_cons, hqa, hpa]
      omega
    · have hlt := ih (fun y hy => h y (List.mem_cons_of_mem x hy)) a hmem hpa hqa
      by_cases hq : q x = true
      · have hp := h x (List.mem_cons_self x xs) hq
        simp [List.filter_cons, hq, hp]
        omega
      · simp only [List.filter_cons, hq, if_neg, Bool.false_eq_true]
        by_cases hp : p x = true <;> simp [hp] <;> omega

theorem countZeros_setCell_lt {n : Nat} {b : Board} {r c v : Nat} (hd : Dims n b)
    (hr : r < n) (hc : c < n) (hz : getCell b r c = 0) (hv : v ≠ 0) :
    countZeros n (setCell b r c v) < countZeros n b := by
  unfold countZeros
  apply length_filter_lt_of_imp _ _ (allPositions n) ?_ (r, c)
    (mem_allPositions.mpr ⟨hr, hc⟩) (by simpa using hz)
  · rw [getCell_setCell_dims hd v hr hc]
    simpa using hv
  · intro p _ hq
    by_cases hp : p = (r, c)
    · subst hp
      rw [getCell_setCell_dims hd v hr hc] at hq
      simp at hq
      exact absurd hq hv
    · rwa [getCell_setCell_ne b r c v p.1 p.2 (by
        rcases Prod.mk.injEq p.1 p.2 r c ▸ hp with h
        by_cases h1 : p.1 = r
        · right; intro h2; exact hp (Prod.ext h1 h2)
        · left; exact h1)] at hq

/-! ## `solveBoard`: partial-correctness toolkit -/

theorem sbLoop_restore (f : Board → Option (Bool × Board)) (n bs r c : Nat)
    (hf : ∀ b b2, f b = some (false, b2) → b2 = b) :
    ∀ (L : List Nat) (b b2 : Board), getCell b r c = 0 →
      sbLoop f n bs r c L b = some (false, b2) → b2 = b := by
  intro L
  induction L with
  | nil =>
    intro b b2 hz h
    simp only [sbLoop, Option.some.injEq, Prod.mk.injEq] at h
    exact h.2.symm
  | cons num rest ih =>
    intro b b2 hz h
    simp only [sbLoop] at h
    by_cases hv : isValidPlacement n bs b r c num
    · rw [if_pos hv] at h
      cases hfb : f (setCell b r c num) with
      | none => rw [hfb] at h; simp at h
      | some x =>
        obtain ⟨bl, bb⟩ := x
        rw [hfb] at h
        cases bl
        · simp only at h
          have hbb := hf _ _ hfb
          rw [hbb, setCell_zero_cancel _ _ _ _ hz] at h
          exact ih b b2 hz h
        · simp at h
    · rw [if_neg hv] at h
      exact ih b b2 hz h

theorem solveBoardF_restore (n bs : Nat) :
    ∀ (fuel : Nat) (b b2 : Board), solveBoardF n bs fuel b = some (false, b2) → b2 = b := by
  intro fuel
  induction fuel with
  | zero => intro b b2 h; simp [solveBoardF] at h
  | succ fuel ih =>
    intro b b2 h
    simp only [solveBoardF] at h
    cases hfe : findEmptyCell n b with
    | none => rw [hfe] at h; simp at h
    | some rc =>
      obtain ⟨r, c⟩ := rc
      rw [hfe] at h
      have hz := (findEmptyCell_some hfe).2.2
      exact sbLoop_restore _ n bs r c (fun bb bb2 hb => ih bb bb2 hb) _ b b2 hz h

theorem sbLoop_dims {n : Nat} (f : Board → Option (Bool × Board)) (bs r c : Nat)
    (hf : ∀ b bl b2, Dims n b → f b = some (bl, b2) → Dims n b2) :
    ∀ (L : List Nat) (b : Board) (bl : Bool) (b2 : Board), Dims n b →
      sbLoop f n bs r c L b = some (bl, b2) → Dims n b2 := by
  intro L
  induction L with
  | nil =>
    intro b bl b2 hd h
    simp only [sbLoop, Option.some.injEq, Prod.mk.injEq] at h
    exact h.2 ▸ hd
  | cons num rest ih =>
    intro b bl b2 hd h
    simp only [sbLoop] at h
    by_cases hv : isValidPlacement n bs b r c num
    · rw [if_pos hv] at h
      cases hfb : f (setCell b r c num) with
      | none => rw [hfb] at h; simp at h
      | some x =>
        obtain ⟨bl1, bb⟩ := x
        rw [hfb] at h
        have hdbb : Dims n bb := hf _ _ _ (dims_setCell hd r c num) hfb
        cases bl1
        · simp only at h
          exact ih _ bl b2 (dims_setCell hdbb r c 0) h
        · simp only [Option.some.injEq, Prod.mk.injEq] at h
          obtain ⟨h1, h2⟩ := h
          exact h2 ▸ hdbb
    · rw [if_neg hv] at h
      exact ih b bl b2 hd h

theorem solveBoardF_dims {n : Nat} (bs : Nat) :
    ∀ (fuel : Nat) (b : Board) (bl : Bool) (b2 : Board), Dims n b →
      solveBoardF n bs fuel b = some (bl, b2) → Dims n b2 := by
  intro fuel
  induction fuel with
  | zero => intro b bl b2 _ h; simp [solveBoardF] at h
  | succ fuel ih =>
    intro b bl b2 hd h
    simp only [solveBoardF] at h
    cases hfe : findEmptyCell n b with
    | none =>
      rw [hfe] at h
      simp only [Option.some.injEq, Prod.mk.injEq] at h
      exact h.2 ▸ hd
    | some rc =>
      obtain ⟨r, c⟩ := rc
      rw [hfe] at h
      exact sbLoop_dims _ bs r c (fun bb bl1 bb2 hdb hb => ih bb bl1 bb2 hdb hb) _ b bl b2 hd h

theorem sbLoop_congr (f g : Board → Option (Bool × Board)) (n bs r c : Nat)
    (hfg : ∀ b x, f b = some x → g b = some x) :
    ∀ (L : List Nat) (b : Board) (x : Bool × Board),
      sbLoop f n bs r c L b = some x → sbLoop g n bs r c L b = some x := by
  intro L
  induction L with
  | nil => intro b x h; simpa [sbLoop] using h
  | cons num rest ih =>
    intro b x h
    simp only [sbLoop] at h ⊢
    by_cases hv : isValidPlacement n bs b r c num
    · rw [if_pos hv] at h ⊢
      cases hfb : f (setCell b r c num) with
      | none => rw [hfb] at h; simp at h
      | some y =>
        obtain ⟨bl1, bb⟩ := y
        rw [hfb] at h
        rw [hfg _ _ hfb]
        cases bl1
        · simp only at h ⊢
          exact ih _ x h
        · exact h
    · rw [if_neg hv] at h ⊢
      exact ih b x h

theorem solveBoardF_mono (n bs : Nat) :
    ∀ (fuel fuel2 : Nat), fuel ≤ fuel2 → ∀ (b : Board) (x : Bool × Board),
      solveBoardF n bs fuel b = some x → solveBoardF n bs fuel2 b = some x := by
  intro fuel
  induction fuel with
  | zero => intro fuel2 _ b x h; simp [solveBoardF] at h
  | succ fuel ih =>
    intro fuel2 hle b x h
    obtain ⟨fuel3, rfl⟩ : ∃ k, fuel2 = k + 1 := ⟨fuel2 - 1, by omega⟩
    simp only [solveBoardF] at h ⊢
    cases hfe : findEmptyCell n b with
    | none => rw [hfe] at h; exact h
    | some rc =>
      obtain ⟨r, c⟩ := rc
      rw [hfe] at h
      exact sbLoop_congr _ _ n bs r c (fun bb y hb => ih fuel3 (by omega) bb y hb) _ b x h

theorem sbLoop_isSome {n : Nat} (f : Board → Option (Bool × Board)) (bs r c : Nat) (F : Nat)
    (hfS : ∀ b, Dims n b → countZeros n b < F → (f b).isSome = true)
    (hfR : ∀ b b2, f b = some (false, b2) → b2 = b) :
    ∀ (L : List Nat) (b : Board), (∀ x ∈ L, x ≠ 0) → Dims n b → countZeros n b ≤ F →
      r < n → c < n → getCell b r c = 0 →
      (sbLoop f n bs r c L b).isSome = true := by
  intro L
  induction L with
  | nil => intro b _ _ _ _ _ _; simp [sbLoop]
  | cons num rest ih =>
    intro b hL hd hcz hr hc hz
    simp only [sbLoop]
    by_cases hv : isValidPlacement n bs b r c num
    · rw [if_pos hv]
      have hnum : num ≠ 0 := hL num (List.mem_cons_self num rest)
      have hlt : countZeros n (setCell b r c num) < F :=
        Nat.lt_of_lt_of_le (countZeros_setCell_lt hd hr hc hz hnum) hcz
      have hS := hfS _ (dims_setCell hd r c num) hlt
      cases hfb : f (setCell b r c num) with
      | none => rw [hfb] at hS; simp at hS
      | some y =>
        obtain ⟨bl1, bb⟩ := y
        cases bl1
        · simp only
          have hbb := hfR _ _ hfb
          rw [hbb, setCell_zero_cancel _ _ _ _ hz]
          exact ih b (fun x hx => hL x (List.mem_cons_of_mem num hx)) hd hcz hr hc hz
        · simp
    · rw [if_neg hv]
      exact ih b (fun x hx => hL x (List.mem_cons_of_mem num hx)) hd hcz hr hc hz

theorem solveBoardF_isSome {n : Nat} (bs : Nat) :
    ∀ (fuel : Nat) (b : Board), Dims n b → countZeros n b < fuel →
      (solveBoardF n bs fuel b).isSome = true := by
  intro fuel
  induction fuel with
  | zero => intro b _ h; omega
  | succ fuel ih =>
    intro b hd hcz
    simp only [solveBoardF]
    cases hfe : findEmptyCell n b with
    | none => simp
    | some rc =>
      obtain ⟨r, c⟩ := rc
      obtain ⟨hr, hc, hz⟩ := findEmptyCell_some hfe
      exact sbLoop_isSome _ bs r c fuel (fun bb hdb hzb => ih bb hdb hzb)
        (fun bb bb2 hb => solveBoardF_restore n bs fuel bb bb2 hb) _ b
        (fun x hx => by
          have := List.mem_range'_1.mp hx
          omega) hd (by omega) hr hc hz

theorem solveBoardRun_isSome {n : Nat} (bs : Nat) (b : Board) (hd : Dims n b) :
    (solveBoardRun n bs b).isSome = true :=
  solveBoardF_isSome bs (countZeros n b + 1) b hd (by omega)

/-! ## `bruteForceSolver`: partial-correctness toolkit -/

/-- `b2` agrees with `b` on every cell (in range or not) that is nonzero
in `b`. -/
def agreesOnFilled (b b2 : Board) : Prop :=
  ∀ i j : Nat, getCell b i j ≠ 0 → getCell b2 i j = getCell b i j

theorem getCell_setCell_zero (b : Board) (r c : Nat) :
    getCell (setCell b r c 0) r c = 0 := by
  by_cases hr : r < b.length
  · by_cases hc : c < (b.getD r []).length
    · exact getCell_setCell_self b r c 0 hr hc
    · unfold getCell setCell
      rw [listGetD_set_eq [] b r _ hr, listSet_oob _ c 0 (Nat.le_of_not_lt hc),
        listGetD_oob 0 _ c (Nat.le_of_not_lt hc)]
  · unfold getCell setCell
    rw [listSet_oob b r _ (Nat.le_of_not_lt hr), listGetD_oob 0 _ c]
    by_cases hcl : c < (b.getD r []).length
    · rw [listGetD_oob [] b r (Nat.le_of_not_lt hr)] at hcl
      simp at hcl
    · exact Nat.le_of_not_lt hcl

theorem tryNums_restore (f : SState → Option (Bool × SState)) (n bs r c : Nat)
    (hf : ∀ st st2, f st = some (false, st2) → st2.board = st.board) :
    ∀ (L : List Nat) (st st2 : SState), getCell st.board r c = 0 →
      tryNums f n bs r c L st = some (false, st2) → st2.board = st.board := by
  intro L
  induction L with
  | nil =>
    intro st st2 hz h
    simp only [tryNums, Option.some.injEq, Prod.mk.injEq] at h
    exact h.2 ▸ rfl
  | cons num rest ih =>
    intro st st2 hz h
    simp only [tryNums] at h
    by_cases hv : isValidPlacement n bs st.board r c num
    · rw [if_pos hv] at h
      cases hfb : f ⟨setCell st.board r c num, st.steps, st.attempts + 1⟩ with
      | none => rw [hfb] at h; simp at h
      | some x =>
        obtain ⟨bl, stb⟩ := x
        rw [hfb] at h
        cases bl
        · simp only at h
          have hbb : stb.board = setCell st.board r c num := hf _ _ hfb
          have hrw : setCell stb.board r c 0 = st.board := by
            rw [hbb, setCell_zero_cancel _ _ _ _ hz]
          have := ih ⟨setCell stb.board r c 0, stb.steps, stb.attempts⟩ st2 (by
            simpa [hrw] using hz) h
          simpa [hrw] using this
        · simp at h
    · rw [if_neg hv] at h
      exact ih st st2 hz h

theorem backtrackF_restore (n bs : Nat) :
    ∀ (fuel r c : Nat) (st st2 : SState),
      backtrackF n bs fuel r c st = some (false, st2) → st2.board = st.board := by
  intro fuel
  induction fuel with
  | zero => intro r c st st2 h; simp [backtrackF] at h
  | succ fuel ih =>
    intro r c st st2 h
    simp only [backtrackF] at h
    by_cases hcn : c = n
    · rw [if_pos hcn] at h
      exact ih (r + 1) 0 ⟨st.board, st.steps + 1, st.attempts⟩ st2 h
    · rw [if_neg hcn] at h
      by_cases hrn : r = n
      · rw [if_pos hrn] at h
        simp at h
      · rw [if_neg hrn] at h
        by_cases hnz : getCell st.board r c ≠ 0
        · rw [if_pos hnz] at h
          exact ih r (c + 1) ⟨st.board, st.steps + 1, st.attempts⟩ st2 h
        · rw [if_neg hnz] at h
          push_neg at hnz
          exact tryNums_restore _ n bs r c (fun sta stb hb => ih r (c + 1) sta stb hb)
            (List.range' 1 n) ⟨st.board, st.steps + 1, st.attempts⟩ st2 hnz h

theorem tryNums_frame (f : SState → Option (Bool × SState)) (n bs r c : Nat)
    (hf : ∀ st bl st2, f st = some (bl, st2) → agreesOnFilled st.board st2.board) :
    ∀ (L : List Nat) (st : SState) (bl : Bool) (st2 : SState), getCell st.board r c = 0 →
      tryNums f n bs r c L st = some (bl, st2) → agreesOnFilled st.board st2.board := by
  intro L
  induction L with
  | nil =>
    intro st bl st2 hz h
    simp only [tryNums, Option.some.injEq, Prod.mk.injEq] at h
    intro i j hnz
    rw [← h.2]
  | cons num rest ih =>
    intro st bl st2 hz h
    simp only [tryNums] at h
    have hne : ∀ i j : Nat, getCell st.board i j ≠ 0 → i ≠ r ∨ j ≠ c := by
      intro i j hnz
      by_cases hi : i = r
      · right; intro hj; rw [hi, hj] at hnz; exact hnz hz
      · left; exact hi
    by_cases hv : isValidPlacement n bs st.board r c num
    · rw [if_pos hv] at h
      cases hfb : f ⟨setCell st.board r c num, st.steps, st.attempts + 1⟩ with
      | none => rw [hfb] at h; simp at h
      | some x =>
        obtain ⟨bl1, stb⟩ := x
        rw [hfb] at h
        have hchild := hf _ _ _ hfb
        cases bl1
        · simp only at h
          have hz3 : getCell (setCell stb.board r c 0) r c = 0 := getCell_setCell_zero _ r c
          have hrest := ih ⟨setCell stb.board r c 0, stb.steps, stb.attempts⟩ bl st2 hz3 h
          intro i j hnz
          have hij := hne i j hnz
          have h1 : getCell (setCell st.board r c num) i j = getCell st.board i j :=
            getCell_setCell_ne _ _ _ _ _ _ (by tauto)
          have h2 : getCell stb.board i j = getCell st.board i j := by
            have := hchild i j (by simpa [h1] using hnz)
            simpa [h1] using this
          have h3 : getCell (setCell stb.board r c 0) i j = getCell st.board i j := by
            rw [getCell_setCell_ne _ _ _ _ _ _ (by tauto)]
            exact h2
          have := hrest i j (by simpa [h3] using hnz)
          simpa [h3] using this
        · simp only [Option.some.injEq, Prod.mk.injEq] at h
          obtain ⟨hbl, rfl⟩ := h
          intro i j hnz
          have hij := hne i j hnz
          have h1 : getCell (setCell st.board r c num) i j = getCell st.board i j :=
            getCell_setCell_ne _ _ _ _ _ _ (by tauto)
          have := hchild i j (by simpa [h1] using hnz)
          simpa [h1] using this
    · rw [if_neg hv] at h
      exact ih st bl st2 hz h

theorem backtrackF_frame (n bs : Nat) :
    ∀ (fuel r c : Nat) (st : SState) (bl : Bool) (st2 : SState),
      backtrackF n bs fuel r c st = some (bl, st2) → agreesOnFilled st.board st2.board := by
  intro fuel
  induction fuel with
  | zero => intro r c st bl st2 h; simp [backtrackF] at h
  | succ fuel ih =>
    intro r c st bl st2 h
    simp only [backtrackF] at h
    by_cases hcn : c = n
    · rw [if_pos hcn] at h
      exact ih (r + 1) 0 ⟨st.board, st.steps + 1, st.attempts⟩ bl st2 h
    · rw [if_neg hcn] at h
      by_cases hrn : r = n
      · rw [if_pos hrn] at h
        simp only [Option.some.injEq, Prod.mk.injEq] at h
        intro i j hnz
        rw [← h.2]
      · rw [if_neg hrn] at h
        by_cases hnz : getCell st.board r c ≠ 0
        · rw [if_pos hnz] at h
          exact ih r (c + 1) ⟨st.board, st.steps + 1, st.attempts⟩ bl st2 h
        · rw [if_neg hnz] at h
          push_neg at hnz
          exact tryNums_frame _ n bs r c (fun sta bl1 stb hb => ih r (c + 1) sta bl1 stb hb)
            (List.range' 1 n) ⟨st.board, st.steps + 1, st.attempts⟩ bl st2 hnz h

theorem tryNums_steps (f : SState → Option (Bool × SState)) (n bs r c : Nat)
    (hf : ∀ st bl st2, f st = some (bl, st2) →
      ∃ k, st2.attempts = st.attempts + k ∧ st.steps + k < st2.steps) :
    ∀ (L : List Nat) (st : SState) (bl : Bool) (st2 : SState),
      tryNums f n bs r c L st = some (bl, st2) →
      ∃ k, st2.attempts = st.attempts + k ∧ st.steps + k ≤ st2.steps := by
  intro L
  induction L with
  | nil =>
    intro st bl st2 h
    simp only [tryNums, Option.some.injEq, Prod.mk.injEq] at h
    exact ⟨0, by rw [← h.2]; omega, by rw [← h.2]; omega⟩
  | cons num rest ih =>
    intro st bl st2 h
    simp only [tryNums] at h
    by_cases hv : isValidPlacement n bs st.board r c num
    · rw [if_pos hv] at h
      cases hfb : f ⟨setCell st.board r c num, st.steps, st.attempts + 1⟩ with
      | none => rw [hfb] at h; simp at h
      | some x =>
        obtain ⟨bl1, stb⟩ := x
        rw [hfb] at h
        obtain ⟨k1, ha1, hs1⟩ := hf _ _ _ hfb
        simp only at ha1 hs1
        cases bl1
        · simp only at h
          obtain ⟨k2, ha2, hs2⟩ := ih ⟨setCell stb.board r c 0, stb.steps, stb.attempts⟩ bl st2 h
          simp only at ha2 hs2
          exact ⟨1 + k1 + k2, by omega, by omega⟩
        · simp only [Option.some.injEq, Prod.mk.injEq] at h
          obtain ⟨hbl, rfl⟩ := h
          exact ⟨1 + k1, by omega, by omega⟩
    · rw [if_neg hv] at h
      exact ih st bl st2 h

theorem backtrackF_steps (n bs : Nat) :
    ∀ (fuel r c : Nat) (st : SState) (bl : Bool) (st2 : SState),
      backtrackF n bs fuel r c st = some (bl, st2) →
      ∃ k, st2.attempts = st.attempts + k ∧ st.steps + k < st2.steps := by
  intro fuel
  induction fuel with
  | zero => intro r c st bl st2 h; simp [backtrackF] at h
  | succ fuel ih =>
    intro r c st bl st2 h
    simp only [backtrackF] at h
    by_cases hcn : c = n
    · rw [if_pos hcn] at h
      obtain ⟨k, ha, hs⟩ := ih (r + 1) 0 ⟨st.board, st.steps + 1, st.attempts⟩ bl st2 h
      dsimp only at ha hs
      exact ⟨k, ha, by omega⟩
    · rw [if_neg hcn] at h
      by_cases hrn : r = n
      · rw [if_pos hrn] at h
        simp only [Option.some.injEq, Prod.mk.injEq] at h
        refine ⟨0, ?_, ?_⟩ <;> rw [← h.2] <;> dsimp only <;> omega
      · rw [if_neg hrn] at h
        by_cases hnz : getCell st.board r c ≠ 0
        · rw [if_pos hnz] at h
          obtain ⟨k, ha, hs⟩ := ih r (c + 1) ⟨st.board, st.steps + 1, st.attempts⟩ bl st2 h
          dsimp only at ha hs
          exact ⟨k, ha, by omega⟩
        · rw [if_neg hnz] at h
          obtain ⟨k, ha, hs⟩ := tryNums_steps _ n bs r c
            (fun sta bl1 stb hb => ih r (c + 1) sta bl1 stb hb)
            (List.range' 1 n) ⟨st.board, st.steps + 1, st.attempts⟩ bl st2 h
          dsimp only at ha hs
          exact ⟨k, ha, by omega⟩

theorem btMeasure_wrap {n r : Nat} (h : r < n) :
    btMeasure n (r + 1) 0 + 2 = btMeasure n r n := by
  unfold btMeasure
  obtain ⟨d, hd⟩ : ∃ d, n - r = d + 1 := ⟨n - r - 1, by omega⟩
  have h2 : n - (r + 1) = d := by omega
  have h4 : n + 1 - n = 1 := by omega
  rw [hd, h2, h4, Nat.sub_zero]
  ring

theorem btMeasure_step {n c : Nat} (r : Nat) (h : c < n) :
    btMeasure n r (c + 1) + 1 = btMeasure n r c := by
  unfold btMeasure
  have h1 : n + 1 - (c + 1) + 1 = n + 1 - c := by omega
  omega

theorem tryNums_isSome (f : SState → Option (Bool × SState)) (n bs r c : Nat)
    (hf : ∀ st, (f st).isSome = true) :
    ∀ (L : List Nat) (st : SState), (tryNums f n bs r c L st).isSome = true := by
  intro L
  induction L with
  | nil => intro st; simp [tryNums]
  | cons num rest ih =>
    intro st
    simp only [tryNums]
    by_cases hv : isValidPlacement n bs st.board r c num
    · rw [if_pos hv]
      have hS := hf ⟨setCell st.board r c num, st.steps, st.attempts + 1⟩
      cases hfb : f ⟨setCell st.board r c num, st.steps, st.attempts + 1⟩ with
      | none => rw [hfb] at hS; simp at hS
      | some x =>
        obtain ⟨bl1, stb⟩ := x
        cases bl1
        · exact ih _
        · simp
    · rw [if_neg hv]
      exact ih st

theorem backtrackF_isSome (n bs : Nat) :
    ∀ (fuel r c : Nat) (st : SState), r ≤ n → c ≤ n → (c = n → r < n) →
      btMeasure n r c < fuel → (backtrackF n bs fuel r c st).isSome = true := by
  intro fuel
  induction fuel with
  | zero => intro r c st _ _ _ hm; omega
  | succ fuel ih =>
    intro r c st hr hc hcr hm
    simp only [backtrackF]
    by_cases hcn : c = n
    · rw [if_pos hcn]
      have hrn : r < n := hcr hcn
      have hw := btMeasure_wrap hrn
      subst hcn
      exact ih (r + 1) 0 _ (by omega) (by omega) (fun h0 => by omega) (by omega)
    · rw [if_neg hcn]
      by_cases hrn : r = n
      · rw [if_pos hrn]; simp
      · rw [if_neg hrn]
        have hcn2 : c < n := by omega
        have hrn2 : r < n := by omega
        have hstep := btMeasure_step r hcn2
        by_cases hnz : getCell st.board r c ≠ 0
        · rw [if_pos hnz]
          exact ih r (c + 1) _ (by omega) (by omega) (fun _ => hrn2) (by omega)
        · rw [if_neg hnz]
          exact tryNums_isSome _ n bs r c
            (fun st2 => ih r (c + 1) st2 (by omega) (by omega) (fun _ => hrn2) (by omega)) _ _

theorem tryNums_congr (f g : SState → Option (Bool × SState)) (n bs r c : Nat)
    (hfg : ∀ st x, f st = some x → g st = some x) :
    ∀ (L : List Nat) (st : SState) (x : Bool × SState),
      tryNums f n bs r c L st = some x → tryNums g n bs r c L st = some x := by
  intro L
  induction L with
  | nil => intro st x h; simpa [tryNums] using h
  | cons num rest ih =>
    intro st x h
    simp only [tryNums] at h ⊢
    by_cases hv : isValidPlacement n bs st.board r c num
    · rw [if_pos hv] at h ⊢
      cases hfb : f ⟨setCell st.board r c num, st.steps, st.attempts + 1⟩ with
      | none => rw [hfb] at h; simp at h
      | some y =>
        obtain ⟨bl1, stb⟩ := y
        rw [hfb] at h
        rw [hfg _ _ hfb]
        cases bl1
        · simp only at h ⊢
          exact ih _ x h
        · exact h
    · rw [if_neg hv] at h ⊢
      exact ih st x h

theorem backtrackF_mono (n bs : Nat) :
    ∀ (fuel fuel2 : Nat), fuel ≤ fuel2 → ∀ (r c : Nat) (st : SState) (x : Bool × SState),
      backtrackF n bs fuel r c st = some x → backtrackF n bs fuel2 r c st = some x := by
  intro fuel
  induction fuel with
  | zero => intro fuel2 _ r c st x h; simp [backtrackF] at h
  | succ fuel ih =>
    intro fuel2 hle r c st x h
    obtain ⟨fuel3, rfl⟩ : ∃ k, fuel2 = k + 1 := ⟨fuel2 - 1, by omega⟩
    simp only [backtrackF] at h ⊢
    by_cases hcn : c = n
    · rw [if_pos hcn] at h ⊢
      exact ih fuel3 (by omega) (r + 1) 0 _ x h
    · rw [if_neg hcn] at h ⊢
      by_cases hrn : r = n
      · rw [if_pos hrn] at h ⊢
        exact h
      · rw [if_neg hrn] at h ⊢
        by_cases hnz : getCell st.board r c ≠ 0
        · rw [if_pos hnz] at h ⊢
          exact ih fuel3 (by omega) r (c + 1) _ x h
        · rw [if_neg hnz] at h ⊢
          exact tryNums_congr _ _ n bs r c
            (fun st2 y hy => ih fuel3 (by omega) r (c + 1) st2 y hy) _ _ x h

theorem backtrackF_full (n bs : Nat) :
    ∀ (fuel r c : Nat) (st : SState), FullBoard n st.board → r ≤ n → c ≤ n →
      (c = n → r < n) → btMeasure n r c < fuel →
      ∃ s2, backtrackF n bs fuel r c st = some (true, ⟨st.board, s2, st.attempts⟩) := by
  intro fuel
  induction fuel with
  | zero => intro r c st _ _ _ _ hm; omega
  | succ fuel ih =>
    intro r c st hfull hr hc hcr hm
    simp only [backtrackF]
    by_cases hcn : c = n
    · rw [if_pos hcn]
      have hrn : r < n := hcr hcn
      have hw := btMeasure_wrap hrn
      subst hcn
      obtain ⟨s2, h2⟩ := ih (r + 1) 0 ⟨st.board, st.steps + 1, st.attempts⟩ hfull
        (by omega) (by omega) (fun h0 => by omega) (by omega)
      exact ⟨s2, h2⟩
    · rw [if_neg hcn]
      by_cases hrn : r = n
      · rw [if_pos hrn]
        exact ⟨st.steps + 1, rfl⟩
      · rw [if_neg hrn]
        have hcn2 : c < n := by omega
        have hrn2 : r < n := by omega
        have hstep := btMeasure_step r hcn2
        have hnz : getCell st.board r c ≠ 0 :=
          hfull r (by simpa using hrn2) c (by simpa using hcn2)
        rw [if_pos hnz]
        obtain ⟨s2, h2⟩ := ih r (c + 1) ⟨st.board, st.steps + 1, st.attempts⟩ hfull
          (by omega) (by omega) (fun _ => hrn2) (by omega)
        exact ⟨s2, h2⟩

theorem solvedGrid_full {n bs : Nat} {b : Board} (hs : SolvedGrid n bs b) : FullBoard n b := by
  intro i hi j hj
  have hv : getCell b i j ∈ rowListB n b i := by
    unfold rowListB
    exact List.mem_map.mpr ⟨j, hj, rfl⟩
  have hmem := (hs.1 i hi).mem_iff.mp hv
  have := List.mem_range'_1.mp hmem
  omega

theorem btMeasure_zero_lt_btFuel (n : Nat) : btMeasure n 0 0 < btFuel n := by
  unfold btMeasure btFuel
  have h1 : (n - 0) * (n + 2) + (n + 1 - 0) = n * n + 3 * n + 1 := by
    rw [Nat.sub_zero, Nat.sub_zero]
    ring
  have h2 : (n + 1) * (n + 3) = n * n + 4 * n + 3 := by ring
  omega

/-- C2 counterexample: on an already solved 2×2 grid the solver makes no
placement attempt at all (the ghost `attempts` counter stays 0 and the
board is unchanged), yet the step counter ends at 7, not 0: it was
incremented once per solver invocation (4 cell visits, 2 row advances, 1
completion check), not once per placement attempt. -/
theorem claim_C2_counterexample :
    backtrackRun 2 1 ⟨[[1, 2], [2, 1]], 0, 0⟩ = some (true, ⟨[[1, 2], [2, 1]], 7, 0⟩) ∧
      (7 : Nat) ≠ 0 := by
  constructor
  · decide
  · decide

/-- C2 (amended): the step counter is incremented exactly once at the
entry of every solver invocation — including invocations that merely skip
a filled cell, advance past a row end, or detect completion — so during a
pass it never decreases, and its increase strictly exceeds the number of
placement attempts made (each attempt's recursive descent increments it
once, and the entry invocation adds at least one more). -/
theorem claim_C2_amended (n bs fuel r c : Nat) (st : SState) (bl : Bool) (st2 : SState)
    (h : backtrackF n bs fuel r c st = some (bl, st2)) :
    st.attempts ≤ st2.attempts ∧
      st.steps + (st2.attempts - st.attempts) < st2.steps := by
  obtain ⟨k, ha, hs⟩ := backtrackF_steps n bs fuel r c st bl st2 h
  omega

theorem claim_C2_witness :
    (⟨[[1, 0], [0, 1]], 0, 0⟩ : SState).attempts ≤ (⟨[[1, 2], [2, 1]], 7, 2⟩ : SState).attempts ∧
      (⟨[[1, 0], [0, 1]], 0, 0⟩ : SState).steps +
        ((⟨[[1, 2], [2, 1]], 7, 2⟩ : SState).attempts -
          (⟨[[1, 0], [0, 1]], 0, 0⟩ : SState).attempts) <
        (⟨[[1, 2], [2, 1]], 7, 2⟩ : SState).steps :=
  claim_C2_amended 2 1 (btFuel 2) 0 0 ⟨[[1, 0], [0, 1]], 0, 0⟩ true
    ⟨[[1, 2], [2, 1]], 7, 2⟩ (by decide)

/-- C4: a solver pass (any entry point, any fuel, success or failure)
leaves every cell that was nonzero at entry unchanged; only cells that
were 0 at entry are ever written. -/
theorem claim_C4 (n bs : Nat) (st : SState) (bl : Bool) (st2 : SState)
    (h : backtrackRun n bs st = some (bl, st2)) :
    agreesOnFilled st.board st2.board :=
  backtrackF_frame n bs (btFuel n) 0 0 st bl st2 h

theorem claim_C4_witness :
    backtrackRun 2 1 ⟨[[1, 0], [0, 1]], 0, 0⟩ = some (true, ⟨[[1, 2], [2, 1]], 7, 2⟩) ∧
      agreesOnFilled [[1, 0], [0, 1]] [[1, 2], [2, 1]] :=
  ⟨by decide,
    claim_C4 2 1 ⟨[[1, 0], [0, 1]], 0, 0⟩ true ⟨[[1, 2], [2, 1]], 7, 2⟩ (by decide)⟩

/-- C10: when the solver reports failure the board is restored exactly to
its state before the call — every placement made during the failed search
has been undone. -/
theorem claim_C10 (n bs : Nat) (st st2 : SState)
    (h : backtrackRun n bs st = some (false, st2)) :
    st2.board = st.board :=
  backtrackF_restore n bs (btFuel n) 0 0 st st2 h

theorem claim_C10_witness :
    backtrackRun 2 1 ⟨[[1, 0], [0, 2]], 0, 0⟩ = some (false, ⟨[[1, 0], [0, 2]], 2, 0⟩) ∧
      (⟨[[1, 0], [0, 2]], 2, 0⟩ : SState).board = (⟨[[1, 0], [0, 2]], 0, 0⟩ : SState).board :=
  ⟨by decide,
    claim_C10 2 1 ⟨[[1, 0], [0, 2]], 0, 0⟩ ⟨[[1, 0], [0, 2]], 2, 0⟩ (by decide)⟩

/-- C9: a pass over an already fully solved grid reports success, writes
no cell (the final board is the input board) and makes zero placement
attempts (the ghost `attempts` counter is unchanged). -/
theorem claim_C9 (n bs : Nat) (b : Board) (s a : Nat) (hn : 0 < n)
    (hs : SolvedGrid n bs b) :
    ∃ s2, backtrackRun n bs ⟨b, s, a⟩ = some (true, ⟨b, s2, a⟩) := by
  obtain ⟨s2, h2⟩ := backtrackF_full n bs (btFuel n) 0 0 ⟨b, s, a⟩ (solvedGrid_full hs)
    (Nat.zero_le n) (Nat.zero_le n) (fun _ => hn) (btMeasure_zero_lt_btFuel n)
  exact ⟨s2, h2⟩

theorem claim_C9_witness :
    (0 : Nat) < 4 ∧ SolvedGrid 4 2 [[1, 2, 3, 4], [3, 4, 1, 2], [2, 1, 4, 3], [4, 3, 2, 1]] ∧
      ∃ s2, backtrackRun 4 2 ⟨[[1, 2, 3, 4], [3, 4, 1, 2], [2, 1, 4, 3], [4, 3, 2, 1]], 5, 3⟩ =
        some (true, ⟨[[1, 2, 3, 4], [3, 4, 1, 2], [2, 1, 4, 3], [4, 3, 2, 1]], s2, 3⟩) :=
  ⟨by decide, by decide,
    claim_C9 4 2 [[1, 2, 3, 4], [3, 4, 1, 2], [2, 1, 4, 3], [4, 3, 2, 1]] 5 3 (by decide)
      (by decide)⟩

/-! ## Generation: dimensions, totality of construction, removal count -/

theorem dims_createEmptyBoard (n : Nat) : Dims n (createEmptyBoard n) := by
  unfold createEmptyBoard
  constructor
  · simp
  · intro row hrow
    rw [List.eq_of_mem_replicate hrow]
    simp

theorem dims_foldl_setCell {n : Nat} {α : Type} (g : α → Nat × Nat) (v : α → Nat) :
    ∀ (l : List α) (b : Board), Dims n b →
      Dims n (l.foldl (fun acc x => setCell acc (g x).1 (g x).2 (v x)) b) := by
  intro l
  induction l with
  | nil => intro b hd; exact hd
  | cons x xs ih =>
    intro b hd
    exact ih _ (dims_setCell hd _ _ _)

theorem dims_fillBox {n : Nat} (bs : Nat) (b : Board) (sr sc : Nat) (numbers : List Nat)
    (hd : Dims n b) : Dims n (fillBox bs b sr sc numbers) := by
  unfold fillBox
  exact dims_foldl_setCell (fun ij => (sr + ij.1, sc + ij.2))
    (fun ij => numbers.getD (ij.1 * bs + ij.2) 0) (allPositions bs) b hd

theorem dims_fillDiagonalBoxes {n : Nat} (nn bs : Nat) (b : Board) (perms : List (List Nat))
    (hd : Dims n b) : Dims n (fillDiagonalBoxes nn bs b perms) := by
  unfold fillDiagonalBoxes
  generalize List.range (diagSteps nn bs) = l
  induction l generalizing b with
  | nil => exact hd
  | cons k ks ih => exact ih _ (dims_fillBox bs b _ _ _ hd)

theorem sudokuInit_total (n : Nat) (perms : List (List Nat)) (cells : List (Nat × Nat)) :
    (sudokuInit n perms cells).isSome = true := by
  unfold sudokuInit
  have hd : Dims n (fillDiagonalBoxes n (intSqrt n) (createEmptyBoard n) perms) :=
    dims_fillDiagonalBoxes n (intSqrt n) _ perms (dims_createEmptyBoard n)
  have hS := solveBoardRun_isSome (intSqrt n) _ hd
  cases hrun : solveBoardRun n (intSqrt n)
      (fillDiagonalBoxes n (intSqrt n) (createEmptyBoard n) perms) with
  | none => rw [hrun] at hS; simp at hS
  | some x =>
    obtain ⟨bl, b2⟩ := x
    simp only [hrun]
    simp

/-- C5 counterexample: `2` has no integer square root, yet construction at
size 2 (with no solver injected — the solver is not consulted during
construction at all) succeeds with no error and performs the full
generation work: the resulting puzzle board is not the empty board. -/
theorem cellsToRemove_two_default : cellsToRemove 2 (7 / 10) = 2 := by
  unfold cellsToRemove
  have h1 : ((2 : Nat) : ℚ) * ((2 : Nat) : ℚ) * (7 / 10) = 14 / 5 := by norm_num
  rw [h1]
  have h2 : (⌊(14 / 5 : ℚ)⌋ : ℤ) = 2 := by
    rw [Int.floor_eq_iff]
    norm_num
  rw [h2]
  rfl

theorem claim_C5_counterexample :
    intSqrt 2 * intSqrt 2 ≠ 2 ∧
      sudokuInit 2 [[1, 2], [2, 1]] (allPositions 2) =
        some ⟨2, 1, [[0, 0], [0, 2]], [[1, 0], [0, 2]], 0⟩ ∧
      (⟨2, 1, [[0, 0], [0, 2]], [[1, 0], [0, 2]], 0⟩ : SudokuC).board ≠ createEmptyBoard 2 := by
  refine ⟨by decide, ?_, by decide⟩
  unfold sudokuInit
  simp only [cellsToRemove_two_default]
  decide

/-- C5 (amended): the only configuration check in the program is the
missing-solver test, performed at the top of `solve()` — after
construction, but before the search runs — and surfaced as an exception;
with a solver present `solve()` always runs it.  Construction itself never
fails: for every size (square or not) and every difficulty-independent
input it completes the full generation, validating neither the dimension
nor the (hard-coded, caller-invisible) difficulty. -/
theorem claim_C5_amended :
    (∀ st : SState, solveEntry none st = Except.error "No solver function provided") ∧
      (∀ (f : SState → Option (Bool × SState)) (st : SState),
        solveEntry (some f) st = Except.ok (f st)) ∧
      (∀ (n : Nat) (perms : List (List Nat)) (cells : List (Nat × Nat)),
        (sudokuInit n perms cells).isSome = true) :=
  ⟨fun _ => rfl, fun _ _ => rfl, sudokuInit_total⟩

theorem removal_getCell {n : Nat} :
    ∀ (S : List (Nat × Nat)) (b : Board), Dims n b → (∀ p ∈ S, p.1 < n ∧ p.2 < n) →
      ∀ i j : Nat, i < n → j < n →
        getCell (S.foldl (fun acc p => setCell acc p.1 p.2 0) b) i j =
          if (i, j) ∈ S then 0 else getCell b i j := by
  intro S
  induction S with
  | nil => intro b _ _ i j _ _; simp
  | cons p S2 ih =>
    intro b hd hrange i j hi hj
    have hp := hrange p (List.mem_cons_self p S2)
    have hrest := ih (setCell b p.1 p.2 0) (dims_setCell hd _ _ _)
      (fun q hq => hrange q (List.mem_cons_of_mem p hq)) i j hi hj
    simp only [List.foldl_cons]
    rw [hrest]
    by_cases hmem : (i, j) ∈ S2
    · simp [hmem]
    · rw [if_neg hmem]
      by_cases hij : (i, j) = p
      · subst hij
        rw [if_pos (List.mem_cons_self _ _)]
        exact getCell_setCell_dims hd 0 hi hj
      · rw [if_neg (by
          intro hc
          rcases List.mem_cons.mp hc with hc | hc
          · exact hij hc
          · exact hmem hc)]
        refine getCell_setCell_ne b p.1 p.2 0 i j ?_
        by_cases h1 : i = p.1
        · right
          intro h2
          exact hij (by rw [h1, h2])
        · left
          exact h1

/-- C3: with the shuffled coordinate list modelled as an arbitrary
permutation of all cells, removal at difficulty `d ∈ [0, 1]` on a fully
filled grid leaves exactly `min (floor (n² · d)) (n²)` empty cells. -/
theorem claim_C3 (n : Nat) (d : ℚ) (b : Board) (cells : List (Nat × Nat))
    (hd0 : 0 ≤ d) (hd1 : d ≤ 1) (hdims : Dims n b) (hfull : FullBoard n b)
    (hperm : List.Perm cells (allPositions n)) :
    countZeros n (removeDigits b cells (cellsToRemove n d)) =
      min (cellsToRemove n d) (n * n) := by
  unfold removeDigits
  have hlen_cells : cells.length = n * n := hperm.length_eq.trans (length_allPositions n)
  have hsub : (cells.take (min (cellsToRemove n d) cells.length)).Sublist cells :=
    List.take_sublist _ _
  have hnodup_cells : cells.Nodup := hperm.nodup_iff.mpr (nodup_allPositions n)
  have hS_nodup : (cells.take (min (cellsToRemove n d) cells.length)).Nodup :=
    hsub.nodup hnodup_cells
  have hS_sub : ∀ p ∈ cells.take (min (cellsToRemove n d) cells.length), p ∈ allPositions n :=
    fun p hp => hperm.subset (hsub.subset hp)
  have hS_range : ∀ p ∈ cells.take (min (cellsToRemove n d) cells.length),
      p.1 < n ∧ p.2 < n :=
    fun p hp => mem_allPositions.mp (hS_sub p hp)
  have hS_len : (cells.take (min (cellsToRemove n d) cells.length)).length =
      min (cellsToRemove n d) (n * n) := by
    rw [List.length_take]
    omega
  unfold countZeros
  have hcongr : (allPositions n).filter
      (fun p => getCell ((cells.take (min (cellsToRemove n d) cells.length)).foldl
        (fun acc p => setCell acc p.1 p.2 0) b) p.1 p.2 == 0) =
      (allPositions n).filter
        (fun p => decide (p ∈ cells.take (min (cellsToRemove n d) cells.length))) := by
    apply List.filter_congr
    intro p hp
    obtain ⟨hp1, hp2⟩ := mem_allPositions.mp hp
    have hchar := removal_getCell (cells.take (min (cellsToRemove n d) cells.length)) b
      hdims hS_range p.1 p.2 hp1 hp2
    by_cases hmem : p ∈ cells.take (min (cellsToRemove n d) cells.length)
    · have hmem2 : (p.1, p.2) ∈ cells.take (min (cellsToRemove n d) cells.length) := by
        simpa using hmem
      rw [if_pos hmem2] at hchar
      simp [hchar, hmem]
    · have hmem2 : (p.1, p.2) ∉ cells.take (min (cellsToRemove n d) cells.length) := by
        simpa using hmem
      rw [if_neg hmem2] at hchar
      have hnz := hfull p.1 (by simpa using hp1) p.2 (by simpa using hp2)
      simp [hchar, hmem, hnz]
  rw [hcongr]
  have hpermF : List.Perm
      ((allPositions n).filter (fun p => decide (p ∈ cells.take (min (cellsToRemove n d)
        cells.length))))
      (cells.take (min (cellsToRemove n d) cells.length)) := by
    rw [List.perm_ext_iff_of_nodup ((nodup_allPositions n).filter _) hS_nodup]
    intro p
    rw [List.mem_filter]
    constructor
    · rintro ⟨_, hp⟩
      simpa using hp
    · intro hp
      exact ⟨hS_sub p hp, by simpa using hp⟩
  rw [hpermF.length_eq, hS_len]

theorem cellsToRemove_nine_zero : cellsToRemove 9 0 = 0 := by
  unfold cellsToRemove
  norm_num

theorem cellsToRemove_nine_one : cellsToRemove 9 1 = 81 := by
  unfold cellsToRemove
  norm_num
  rfl

theorem claim_C3_witness :
    cellsToRemove 9 0 = 0 ∧ cellsToRemove 9 1 = 81 ∧
      countZeros 9 (removeDigits (List.replicate 9 (List.replicate 9 1)) (allPositions 9)
        (cellsToRemove 9 0)) = min (cellsToRemove 9 0) (9 * 9) ∧
      countZeros 9 (removeDigits (List.replicate 9 (List.replicate 9 1)) (allPositions 9)
        (cellsToRemove 9 1)) = min (cellsToRemove 9 1) (9 * 9) :=
  ⟨cellsToRemove_nine_zero, cellsToRemove_nine_one,
    claim_C3 9 0 (List.replicate 9 (List.replicate 9 1)) (allPositions 9)
      le_rfl zero_le_one (by decide) (by decide) (List.Perm.refl _),
    claim_C3 9 1 (List.replicate 9 (List.replicate 9 1)) (allPositions 9)
      zero_le_one le_rfl (by decide) (by decide) (List.Perm.refl _)⟩

/-! ## The placement check (C8) -/

theorem isValidInRow_iff {n : Nat} {b : Board} {row num : Nat} (hd : Dims n b)
    (hrow : row < n) :
    isValidInRow b row num = true ↔ ¬ occursInRow n b row num := by
  unfold isValidInRow occursInRow
  rw [Bool.not_eq_eq_eq_not, Bool.not_true, ← Bool.not_eq_true, List.elem_iff]
  constructor
  · intro hmem hex
    obtain ⟨c, hc, hcell⟩ := hex
    apply hmem
    have hcn : c < n := by simpa using hc
    have hlen : c < (b.getD row []).length := by rw [dims_rowLength hd hrow]; exact hcn
    rw [List.mem_iff_getElem]
    refine ⟨c, hlen, ?_⟩
    unfold getCell at hcell
    rw [← List.getD_eq_getElem _ 0 hlen]
    exact hcell
  · intro hnex hmem
    apply hnex
    rw [List.mem_iff_getElem] at hmem
    obtain ⟨c, hlen, hcell⟩ := hmem
    have hcn : c < n := by rw [dims_rowLength hd hrow] at hlen; exact hlen
    refine ⟨c, by simpa using hcn, ?_⟩
    unfold getCell
    rw [List.getD_eq_getElem _ 0 hlen]
    exact hcell

theorem isValidInColumn_iff {n : Nat} {b : Board} {col num : Nat} :
    isValidInColumn n b col num = true ↔ ¬ occursInCol n b col num := by
  unfold isValidInColumn occursInCol
  rw [List.all_eq_true]
  constructor
  · intro hall hex
    obtain ⟨r, hr, hcell⟩ := hex
    have := hall r hr
    simp [hcell] at this
  · intro hnex r hr
    simp only [bne_iff_ne, ne_eq]
    intro hcell
    exact hnex ⟨r, hr, hcell⟩

theorem isValidInBox_iff {bs : Nat} {b : Board} {row col num : Nat} :
    isValidInBox bs b row col num = true ↔ ¬ occursInBox bs b row col num := by
  unfold isValidInBox occursInBox
  rw [List.all_eq_true]
  constructor
  · intro hall hex
    obtain ⟨i, hi, j, hj, hcell⟩ := hex
    have h1 := hall i hi
    rw [List.all_eq_true] at h1
    have := h1 j hj
    simp [hcell] at this
  · intro hnex i hi
    rw [List.all_eq_true]
    intro j hj
    simp only [bne_iff_ne, ne_eq]
    intro hcell
    exact hnex ⟨i, hi, j, hj, hcell⟩

/-- C8: for in-range coordinates and a candidate in `[1, n]`,
`isValidPlacement` returns true exactly when `num` occurs nowhere in the
row, nowhere in the column, and nowhere in the `bs × bs` box spanning rows
`[row - row % bs, row - row % bs + bs)` and the analogous columns.  (In
the embedding the check is a pure function of the board, so freedom from
side effects is structural.) -/
theorem claim_C8 (n bs : Nat) (b : Board) (row col num : Nat) (hd : Dims n b)
    (hrow : row < n) (hcol : col < n) (hnum1 : 1 ≤ num) (hnumn : num ≤ n) :
    isValidPlacement n bs b row col num = true ↔
      ¬ occursInRow n b row num ∧ ¬ occursInCol n b col num ∧
        ¬ occursInBox bs b row col num := by
  unfold isValidPlacement
  rw [Bool.and_eq_true, Bool.and_eq_true, and_assoc,
    isValidInRow_iff hd hrow, isValidInColumn_iff, isValidInBox_iff]

theorem claim_C8_witness :
    Dims 4 [[1, 2, 0, 0], [0, 0, 3, 0], [0, 1, 0, 0], [0, 0, 0, 4]] ∧
      (isValidPlacement 4 2 [[1, 2, 0, 0], [0, 0, 3, 0], [0, 1, 0, 0], [0, 0, 0, 4]]
          1 1 4 = true ↔
        ¬ occursInRow 4 [[1, 2, 0, 0], [0, 0, 3, 0], [0, 1, 0, 0], [0, 0, 0, 4]] 1 4 ∧
          ¬ occursInCol 4 [[1, 2, 0, 0], [0, 0, 3, 0], [0, 1, 0, 0], [0, 0, 0, 4]] 1 4 ∧
          ¬ occursInBox 2 [[1, 2, 0, 0], [0, 0, 3, 0], [0, 1, 0, 0], [0, 0, 0, 4]] 1 1 4) :=
  ⟨by decide,
    claim_C8 4 2 [[1, 2, 0, 0], [0, 0, 3, 0], [0, 1, 0, 0], [0, 0, 0, 4]] 1 1 4
      (by decide) (by decide) (by decide) (by decide) (by decide)⟩

/-! ## Soundness of the search: valid partial states stay valid -/

theorem box_corner (bs r : Nat) : r - r % bs = bs * (r / bs) := by
  have h := Nat.mod_add_div r bs
  omega

theorem mem_box_of_div_eq {bs r1 r2 : Nat} (hbs : 0 < bs) (h : r1 / bs = r2 / bs) :
    ∃ i, i < bs ∧ r2 = r1 - r1 % bs + i := by
  refine ⟨r2 % bs, Nat.mod_lt _ hbs, ?_⟩
  have h1 := box_corner bs r1
  have h2 := box_corner bs r2
  have h3 : bs * (r1 / bs) = bs * (r2 / bs) := by rw [h]
  have h4 := Nat.mod_le r2 bs
  omega

theorem div_eq_of_mem_box {bs r : Nat} (i : Nat) (hbs : 0 < bs) (hi : i < bs) :
    (r - r % bs + i) / bs = r / bs := by
  rw [box_corner]
  rw [Nat.mul_add_div hbs]
  have : i / bs = 0 := Nat.div_eq_of_lt hi
  omega

theorem getCell_setCell_or (b : Board) (r c v : Nat) :
    getCell (setCell b r c v) r c = v ∨ getCell (setCell b r c v) r c = 0 := by
  by_cases hr : r < b.length
  · by_cases hc : c < (b.getD r []).length
    · left; exact getCell_setCell_self b r c v hr hc
    · right
      unfold getCell setCell
      rw [listGetD_set_eq [] b r _ hr, listSet_oob _ c v (Nat.le_of_not_lt hc),
        listGetD_oob 0 _ c (Nat.le_of_not_lt hc)]
  · right
    unfold getCell setCell
    rw [listSet_oob b r _ (Nat.le_of_not_lt hr), listGetD_oob [] b r (Nat.le_of_not_lt hr)]
    rfl

theorem entriesLE_setCell {n : Nat} {b : Board} (r c num : Nat) (he : EntriesLE n b)
    (hnum : num ≤ n) : EntriesLE n (setCell b r c num) := by
  intro r2 hr2 c2 hc2
  by_cases hij : r2 = r ∧ c2 = c
  · obtain ⟨rfl, rfl⟩ := hij
    rcases getCell_setCell_or b r2 c2 num with h | h
    · rw [h]; exact hnum
    · rw [h]; exact Nat.zero_le n
  · rw [getCell_setCell_ne b r c num r2 c2 (by tauto)]
    exact he r2 hr2 c2 hc2

theorem noRepeats_place {n bs : Nat} {b : Board} {r c num : Nat}
    (hd : Dims n b) (hnr : NoRepeats n bs b) (hr : r < n) (hc : c < n)
    (hz : getCell b r c = 0) (hbs : 0 < bs)
    (hv : isValidPlacement n bs b r c num = true) :
    NoRepeats n bs (setCell b r c num) := by
  unfold isValidPlacement at hv
  rw [Bool.and_eq_true, Bool.and_eq_true] at hv
  obtain ⟨⟨hvr, hvc⟩, hvb⟩ := hv
  rw [isValidInRow_iff hd hr] at hvr
  rw [isValidInColumn_iff] at hvc
  rw [isValidInBox_iff] at hvb
  have key : ∀ ra ca : Nat, ra < n → ca < n → getCell b ra ca = num →
      (ra = r ∨ ca = c ∨ (ra / bs = r / bs ∧ ca / bs = c / bs)) → False := by
    intro ra ca hra hca hval hu
    rcases hu with hu | hu | hu
    · exact hvr ⟨ca, by simpa using hca, by rw [← hu]; exact hval⟩
    · exact hvc ⟨ra, by simpa using hra, by rw [← hu]; exact hval⟩
    · obtain ⟨hi, hj⟩ := hu
      obtain ⟨i, hilt, hieq⟩ := mem_box_of_div_eq hbs hi.symm
      obtain ⟨j, hjlt, hjeq⟩ := mem_box_of_div_eq hbs hj.symm
      exact hvb ⟨i, by simpa using hilt, j, by simpa using hjlt, by
        rw [← hieq, ← hjeq]; exact hval⟩
  have hset : getCell (setCell b r c num) r c = num := getCell_setCell_dims hd num hr hc
  have hkeep : ∀ ra ca : Nat, (ra, ca) ≠ (r, c) →
      getCell (setCell b r c num) ra ca = getCell b ra ca := by
    intro ra ca hok
    refine getCell_setCell_ne b r c num ra ca ?_
    by_cases hx : ra = r
    · right; intro hy; exact hok (by rw [hx, hy])
    · left; exact hx
  intro r1 hr1 c1 hc1 r2 hr2 c2 hc2 hne hnz1 heq hunit
  have hr1n : r1 < n := by simpa using hr1
  have hc1n : c1 < n := by simpa using hc1
  have hr2n : r2 < n := by simpa using hr2
  have hc2n : c2 < n := by simpa using hc2
  by_cases h1 : (r1, c1) = (r, c)
  · by_cases h2 : (r2, c2) = (r, c)
    · exact hne (h1.trans h2.symm)
    · have he1 : r1 = r := congrArg Prod.fst h1
      have he2 : c1 = c := congrArg Prod.snd h1
      subst he1
      subst he2
      rw [hset, hkeep r2 c2 h2] at heq
      apply key r2 c2 hr2n hc2n heq.symm
      rcases hunit with hu | hu | hu
      · exact Or.inl hu.symm
      · exact Or.inr (Or.inl hu.symm)
      · exact Or.inr (Or.inr ⟨hu.1.symm, hu.2.symm⟩)
  · by_cases h2 : (r2, c2) = (r, c)
    · have he1 : r2 = r := congrArg Prod.fst h2
      have he2 : c2 = c := congrArg Prod.snd h2
      subst he1
      subst he2
      rw [hkeep r1 c1 h1] at heq hnz1
      rw [hset] at heq
      exact key r1 c1 hr1n hc1n heq hunit
    · rw [hkeep r1 c1 h1] at heq hnz1
      rw [hkeep r2 c2 h2] at heq
      exact hnr r1 hr1 c1 hc1 r2 hr2 c2 hc2 hne hnz1 heq hunit

theorem sbLoop_sound {n bs : Nat} (f : Board → Option (Bool × Board)) (r c : Nat)
    (hbs : 0 < bs)
    (hfT : ∀ b b2, Dims n b → EntriesLE n b → NoRepeats n bs b →
      f b = some (true, b2) →
      Dims n b2 ∧ EntriesLE n b2 ∧ NoRepeats n bs b2 ∧ FullBoard n b2)
    (hfR : ∀ b b2, f b = some (false, b2) → b2 = b) :
    ∀ (L : List Nat) (b b2 : Board), (∀ x ∈ L, 1 ≤ x ∧ x ≤ n) →
      Dims n b → EntriesLE n b → NoRepeats n bs b →
      r < n → c < n → getCell b r c = 0 →
      sbLoop f n bs r c L b = some (true, b2) →
      Dims n b2 ∧ EntriesLE n b2 ∧ NoRepeats n bs b2 ∧ FullBoard n b2 := by
  intro L
  induction L with
  | nil => intro b b2 _ _ _ _ _ _ _ h; simp [sbLoop] at h
  | cons num rest ih =>
    intro b b2 hL hd he hnr hr hc hz h
    simp only [sbLoop] at h
    by_cases hv : isValidPlacement n bs b r c num
    · rw [if_pos hv] at h
      have hnum := hL num (List.mem_cons_self num rest)
      have hdP : Dims n (setCell b r c num) := dims_setCell hd r c num
      have heP : EntriesLE n (setCell b r c num) := entriesLE_setCell r c num he hnum.2
      have hnrP : NoRepeats n bs (setCell b r c num) :=
        noRepeats_place hd hnr hr hc hz hbs hv
      cases hfb : f (setCell b r c num) with
      | none => rw [hfb] at h; simp at h
      | some x =>
        obtain ⟨bl1, bb⟩ := x
        rw [hfb] at h
        cases bl1
        · simp only at h
          have hbb := hfR _ _ hfb
          rw [hbb, setCell_zero_cancel _ _ _ _ hz] at h
          exact ih b b2 (fun x hx => hL x (List.mem_cons_of_mem num hx)) hd he hnr hr hc hz h
        · simp only [Option.some.injEq, Prod.mk.injEq] at h
          obtain ⟨_, rfl⟩ := h
          exact hfT _ _ hdP heP hnrP hfb
    · rw [if_neg hv] at h
      exact ih b b2 (fun x hx => hL x (List.mem_cons_of_mem num hx)) hd he hnr hr hc hz h

theorem solveBoardF_sound {n bs : Nat} (hbs : 0 < bs) :
    ∀ (fuel : Nat) (b b2 : Board), Dims n b → EntriesLE n b → NoRepeats n bs b →
      solveBoardF n bs fuel b = some (true, b2) →
      Dims n b2 ∧ EntriesLE n b2 ∧ NoRepeats n bs b2 ∧ FullBoard n b2 := by
  intro fuel
  induction fuel with
  | zero => intro b b2 _ _ _ h; simp [solveBoardF] at h
  | succ fuel ih =>
    intro b b2 hd he hnr h
    simp only [solveBoardF] at h
    cases hfe : findEmptyCell n b with
    | none =>
      rw [hfe] at h
      simp only [Option.some.injEq, Prod.mk.injEq] at h
      obtain ⟨_, rfl⟩ := h
      exact ⟨hd, he, hnr, findEmptyCell_eq_none_iff.mp hfe⟩
    | some rc =>
      obtain ⟨r, c⟩ := rc
      rw [hfe] at h
      obtain ⟨hr, hc, hz⟩ := findEmptyCell_some hfe
      exact sbLoop_sound _ r c hbs (fun bb bb2 hdb heb hnrb hb => ih bb bb2 hdb heb hnrb hb)
        (fun bb bb2 hb => solveBoardF_restore n bs fuel bb bb2 hb)
        (List.range' 1 n) b b2
        (fun x hx => by have := List.mem_range'_1.mp hx; omega)
        hd he hnr hr hc hz h

theorem perm_range'_of {n : Nat} (l : List Nat) (hlen : l.length = n) (hnd : l.Nodup)
    (hsub : ∀ x ∈ l, 1 ≤ x ∧ x ≤ n) : List.Perm l (List.range' 1 n) := by
  have hsub2 : l ⊆ List.range' 1 n := by
    intro x hx
    have := hsub x hx
    rw [List.mem_range'_1]
    omega
  have hsp := List.subperm_of_subset hnd hsub2
  refine hsp.perm_of_length_le ?_
  rw [List.length_range', hlen]

theorem solved_of_full {n bs : Nat} {b : Board} (hbsq : bs * bs = n) (hbs : 0 < bs)
    (he : EntriesLE n b) (hnr : NoRepeats n bs b) (hf : FullBoard n b) :
    SolvedGrid n bs b := by
  have hbox_lt : ∀ p i : Nat, p < bs → i < bs → p * bs + i < n := by
    intro p i hp hi
    have h1 : (p + 1) * bs ≤ bs * bs := Nat.mul_le_mul_right bs (by omega)
    have h2 : (p + 1) * bs = p * bs + bs := by ring
    omega
  refine ⟨?_, ?_, ?_⟩
  · intro r hr
    have hrn : r < n := by simpa using hr
    refine perm_range'_of _ (by simp [rowListB]) ?_ ?_
    · refine List.Nodup.map_on ?_ (List.nodup_range n)
      intro c1 hc1 c2 hc2 hval
      by_contra hnec
      have hnz : getCell b r c1 ≠ 0 := hf r hr c1 hc1
      exact hnr r hr c1 hc1 r hr c2 hc2 (by simp [hnec]) hnz hval (Or.inl rfl)
    · intro x hx
      unfold rowListB at hx
      obtain ⟨c, hc, rfl⟩ := List.mem_map.mp hx
      refine ⟨?_, he r hr c hc⟩
      have := hf r hr c hc
      omega
  · intro c hc
    have hcn : c < n := by simpa using hc
    refine perm_range'_of _ (by simp [colListB]) ?_ ?_
    · refine List.Nodup.map_on ?_ (List.nodup_range n)
      intro r1 hr1 r2 hr2 hval
      by_contra hner
      have hnz : getCell b r1 c ≠ 0 := hf r1 hr1 c hc
      exact hnr r1 hr1 c hc r2 hr2 c hc (by simp [hner]) hnz hval (Or.inr (Or.inl rfl))
    · intro x hx
      unfold colListB at hx
      obtain ⟨r, hr, rfl⟩ := List.mem_map.mp hx
      refine ⟨?_, he r hr c hc⟩
      have := hf r hr c hc
      omega
  · intro p hp q hq
    have hpn : p < bs := by simpa using hp
    have hqn : q < bs := by simpa using hq
    refine perm_range'_of _ (by simp [boxListB, length_allPositions, hbsq]) ?_ ?_
    · refine List.Nodup.map_on ?_ (nodup_allPositions bs)
      intro ij1 h1 ij2 h2 hval
      obtain ⟨hi1, hj1⟩ := mem_allPositions.mp h1
      obtain ⟨hi2, hj2⟩ := mem_allPositions.mp h2
      have hr1 : p * bs + ij1.1 < n := hbox_lt p ij1.1 hpn hi1
      have hc1 : q * bs + ij1.2 < n := hbox_lt q ij1.2 hqn hj1
      have hr2 : p * bs + ij2.1 < n := hbox_lt p ij2.1 hpn hi2
      have hc2 : q * bs + ij2.2 < n := hbox_lt q ij2.2 hqn hj2
      by_contra hneq
      have hnz : getCell b (p * bs + ij1.1) (q * bs + ij1.2) ≠ 0 :=
        hf _ (by simpa using hr1) _ (by simpa using hc1)
      have hdiv1 : (p * bs + ij1.1) / bs = p := by
        rw [Nat.mul_comm p bs, Nat.mul_add_div hbs]
        simp [Nat.div_eq_of_lt hi1]
      have hdiv2 : (p * bs + ij2.1) / bs = p := by
        rw [Nat.mul_comm p bs, Nat.mul_add_div hbs]
        simp [Nat.div_eq_of_lt hi2]
      have hdiv3 : (q * bs + ij1.2) / bs = q := by
        rw [Nat.mul_comm q bs, Nat.mul_add_div hbs]
        simp [Nat.div_eq_of_lt hj1]
      have hdiv4 : (q * bs + ij2.2) / bs = q := by
        rw [Nat.mul_comm q bs, Nat.mul_add_div hbs]
        simp [Nat.div_eq_of_lt hj2]
      refine hnr _ (by simpa using hr1) _ (by simpa using hc1)
        _ (by simpa using hr2) _ (by simpa using hc2) ?_ hnz hval
        (Or.inr (Or.inr ⟨by rw [hdiv1, hdiv2], by rw [hdiv3, hdiv4]⟩))
      intro hcon
      apply hneq
      have hfst := congrArg Prod.fst hcon
      have hsnd := congrArg Prod.snd hcon
      simp only at hfst hsnd
      have : ij1.1 = ij2.1 := by omega
      have : ij1.2 = ij2.2 := by omega
      exact Prod.ext (by omega) (by omega)
    · intro x hx
      unfold boxListB at hx
      obtain ⟨ij, hij, rfl⟩ := List.mem_map.mp hx
      obtain ⟨hi, hj⟩ := mem_allPositions.mp hij
      have hr1 : p * bs + ij.1 < n := hbox_lt p ij.1 hpn hi
      have hc1 : q * bs + ij.2 < n := hbox_lt q ij.2 hqn hj
      refine ⟨?_, he _ (by simpa using hr1) _ (by simpa using hc1)⟩
      have := hf _ (by simpa using hr1) _ (by simpa using hc1)
      omega

/-- C1 counterexample: the generation-time solve carries no validity
premise on the given digits, so on a partial grid whose givens already
violate the constraints it can still report success while the resulting
grid is not solved: here it fills the single empty cell of an all-ones
4×4 grid with a 2 and succeeds. -/
theorem claim_C1_counterexample :
    solveBoardRun 4 2 [[0, 1, 1, 1], [1, 1, 1, 1], [1, 1, 1, 1], [1, 1, 1, 1]] =
        some (true, [[2, 1, 1, 1], [1, 1, 1, 1], [1, 1, 1, 1], [1, 1, 1, 1]]) ∧
      ¬ SolvedGrid 4 2 [[2, 1, 1, 1], [1, 1, 1, 1], [1, 1, 1, 1], [1, 1, 1, 1]] := by
  constructor
  · decide
  · decide

/-- C1 (amended): for every partial grid with conforming dimensions whose
entries lie in `[0, n]` and whose nonzero values repeat in no row, column
or box — as the diagonally seeded generation grids do — success of the
generation-time solve yields a fully solved grid: every row, column and
box is a permutation of `1..n`. -/
theorem claim_C1 (n bs : Nat) (b b2 : Board) (hbsq : bs * bs = n) (hbs : 0 < bs)
    (hd : Dims n b) (he : EntriesLE n b) (hnr : NoRepeats n bs b)
    (hrun : solveBoardRun n bs b = some (true, b2)) :
    SolvedGrid n bs b2 := by
  obtain ⟨hd2, he2, hnr2, hf2⟩ :=
    solveBoardF_sound hbs (countZeros n b + 1) b b2 hd he hnr hrun
  exact solved_of_full hbsq hbs he2 hnr2 hf2

theorem claim_C1_witness :
    NoRepeats 4 2 [[1, 2, 3, 4], [3, 4, 1, 2], [2, 1, 4, 3], [4, 3, 2, 0]] ∧
      SolvedGrid 4 2 [[1, 2, 3, 4], [3, 4, 1, 2], [2, 1, 4, 3], [4, 3, 2, 1]] :=
  ⟨by decide,
    claim_C1 4 2 [[1, 2, 3, 4], [3, 4, 1, 2], [2, 1, 4, 3], [4, 3, 2, 0]]
      [[1, 2, 3, 4], [3, 4, 1, 2], [2, 1, 4, 3], [4, 3, 2, 1]]
      (by decide) (by decide) (by decide) (by decide) (by decide) (by decide)⟩

/-! ## Completeness of the search: failure means no completion exists -/

theorem solvedGrid_nodup_row {n bs : Nat} {s : Board} (hs : SolvedGrid n bs s) {r : Nat}
    (hr : r < n) : (rowListB n s r).Nodup :=
  ((hs.1 r (by simpa using hr)).nodup_iff).mpr (List.nodup_range' 1 n)

theorem solvedGrid_nodup_col {n bs : Nat} {s : Board} (hs : SolvedGrid n bs s) {c : Nat}
    (hc : c < n) : (colListB n s c).Nodup :=
  ((hs.2.1 c (by simpa using hc)).nodup_iff).mpr (List.nodup_range' 1 n)

theorem solvedGrid_nodup_box {n bs : Nat} {s : Board} (hs : SolvedGrid n bs s) {p q : Nat}
    (hp : p < bs) (hq : q < bs) : (boxListB bs s p q).Nodup :=
  ((hs.2.2 p (by simpa using hp) q (by simpa using hq)).nodup_iff).mpr (List.nodup_range' 1 n)

theorem solved_value_range {n bs : Nat} {s : Board} (hs : SolvedGrid n bs s) {r c : Nat}
    (hr : r < n) (hc : c < n) : 1 ≤ getCell s r c ∧ getCell s r c ≤ n := by
  have hv : getCell s r c ∈ rowListB n s r := by
    unfold rowListB
    exact List.mem_map.mpr ⟨c, by simpa using hc, rfl⟩
  have hmem := (hs.1 r (by simpa using hr)).mem_iff.mp hv
  have := List.mem_range'_1.mp hmem
  omega

theorem solved_row_inj {n bs : Nat} {s : Board} (hs : SolvedGrid n bs s) {r c1 c2 : Nat}
    (hr : r < n) (hc1 : c1 < n) (hc2 : c2 < n)
    (hval : getCell s r c1 = getCell s r c2) : c1 = c2 :=
  List.inj_on_of_nodup_map (solvedGrid_nodup_row hs hr)
    (by simpa using hc1) (by simpa using hc2) hval

theorem solved_col_inj {n bs : Nat} {s : Board} (hs : SolvedGrid n bs s) {c r1 r2 : Nat}
    (hc : c < n) (hr1 : r1 < n) (hr2 : r2 < n)
    (hval : getCell s r1 c = getCell s r2 c) : r1 = r2 :=
  List.inj_on_of_nodup_map (solvedGrid_nodup_col hs hc)
    (by simpa using hr1) (by simpa using hr2) hval

theorem div_lt_of_lt_sq {bs n r : Nat} (hbsq : bs * bs = n) (hbs : 0 < bs) (hr : r < n) :
    r / bs < bs := by
  rw [Nat.div_lt_iff_lt_mul hbs]
  omega

theorem solved_box_inj {n bs : Nat} {s : Board} (hbsq : bs * bs = n) (hbs : 0 < bs)
    (hs : SolvedGrid n bs s) {r1 c1 r2 c2 : Nat}
    (hr1 : r1 < n) (hc1 : c1 < n) (hr2 : r2 < n) (hc2 : c2 < n)
    (hbr : r1 / bs = r2 / bs) (hbc : c1 / bs = c2 / bs)
    (hval : getCell s r1 c1 = getCell s r2 c2) : r1 = r2 ∧ c1 = c2 := by
  have hnd := solvedGrid_nodup_box hs (div_lt_of_lt_sq hbsq hbs hr1)
    (div_lt_of_lt_sq hbsq hbs hc1)
  have hkey : ∀ r : Nat, (r / bs) * bs + r % bs = r := by
    intro r
    have := Nat.mod_add_div r bs
    have h2 : (r / bs) * bs = bs * (r / bs) := Nat.mul_comm _ _
    omega
  have h1 : (r1 % bs, c1 % bs) ∈ allPositions bs :=
    mem_allPositions.mpr ⟨Nat.mod_lt _ hbs, Nat.mod_lt _ hbs⟩
  have h2 : (r2 % bs, c2 % bs) ∈ allPositions bs :=
    mem_allPositions.mpr ⟨Nat.mod_lt _ hbs, Nat.mod_lt _ hbs⟩
  have hmap : (fun ij : Nat × Nat => getCell s ((r1 / bs) * bs + ij.1) ((c1 / bs) * bs + ij.2))
        (r1 % bs, c1 % bs) =
      (fun ij : Nat × Nat => getCell s ((r1 / bs) * bs + ij.1) ((c1 / bs) * bs + ij.2))
        (r2 % bs, c2 % bs) := by
    dsimp only
    rw [hkey r1, hkey c1, hbr, hbc, hkey r2, hkey c2]
    exact hval
  have heq := List.inj_on_of_nodup_map hnd h1 h2 hmap
  have hf := congrArg Prod.fst heq
  have hsnd := congrArg Prod.snd heq
  dsimp only at hf hsnd
  constructor
  · have e1 := hkey r1
    have e2 := hkey r2
    have h3 : (r1 / bs) * bs = (r2 / bs) * bs := by rw [hbr]
    omega
  · have e1 := hkey c1
    have e2 := hkey c2
    have h3 : (c1 / bs) * bs = (c2 / bs) * bs := by rw [hbc]
    omega

theorem box_pos_lt {n bs : Nat} (hbsq : bs * bs = n) (hbs : 0 < bs) {r i : Nat}
    (hr : r < n) (hi : i < bs) : r - r % bs + i < n := by
  have h1 := box_corner bs r
  have hdiv := div_lt_of_lt_sq hbsq hbs hr
  have h2 : bs * (r / bs + 1) ≤ bs * bs := Nat.mul_le_mul_left bs (by omega)
  have h3 : bs * (r / bs + 1) = bs * (r / bs) + bs := by ring
  omega

theorem placement_valid_of_solves {n bs : Nat} {b s : Board} {r c : Nat}
    (hbsq : bs * bs = n) (hbs : 0 < bs) (hd : Dims n b)
    (hds : Dims n s) (hs : SolvedGrid n bs s) (hext : BoardExtends n b s)
    (hr : r < n) (hc : c < n) (hz : getCell b r c = 0) :
    isValidPlacement n bs b r c (getCell s r c) = true := by
  have hv := solved_value_range hs hr hc
  unfold isValidPlacement
  rw [Bool.and_eq_true, Bool.and_eq_true, isValidInRow_iff hd hr, isValidInColumn_iff,
    isValidInBox_iff]
  refine ⟨⟨?_, ?_⟩, ?_⟩
  · rintro ⟨c2, hc2m, hval2⟩
    have hc2 : c2 < n := by simpa using hc2m
    have hnz2 : getCell b r c2 ≠ 0 := by omega
    have hs2 : getCell s r c2 = getCell s r c := by
      rw [hext r (by simpa using hr) c2 hc2m hnz2, hval2]
    have := solved_row_inj hs hr hc2 hc hs2
    subst this
    omega
  · rintro ⟨r2, hr2m, hval2⟩
    have hr2 : r2 < n := by simpa using hr2m
    have hnz2 : getCell b r2 c ≠ 0 := by omega
    have hs2 : getCell s r2 c = getCell s r c := by
      rw [hext r2 hr2m c (by simpa using hc) hnz2, hval2]
    have := solved_col_inj hs hc hr2 hr hs2
    subst this
    omega
  · rintro ⟨i, him, j, hjm, hval2⟩
    have hi : i < bs := by simpa using him
    have hj : j < bs := by simpa using hjm
    have hri : r - r % bs + i < n := box_pos_lt hbsq hbs hr hi
    have hcj : c - c % bs + j < n := box_pos_lt hbsq hbs hc hj
    have hnz2 : getCell b (r - r % bs + i) (c - c % bs + j) ≠ 0 := by omega
    have hs2 : getCell s (r - r % bs + i) (c - c % bs + j) = getCell s r c := by
      rw [hext _ (by simpa using hri) _ (by simpa using hcj) hnz2, hval2]
    have hdr : (r - r % bs + i) / bs = r / bs := div_eq_of_mem_box i hbs hi
    have hdc : (c - c % bs + j) / bs = c / bs := div_eq_of_mem_box j hbs hj
    obtain ⟨he1, he2⟩ := solved_box_inj hbsq hbs hs hri hcj hr hc hdr hdc hs2
    rw [he1, he2] at hval2
    omega

theorem boardExtends_place {n : Nat} {b s : Board} {r c num : Nat} (hd : Dims n b)
    (hr : r < n) (hc : c < n) (hext : BoardExtends n b s)
    (hval : getCell s r c = num) : BoardExtends n (setCell b r c num) s := by
  intro r2 hr2 c2 hc2 hnz
  by_cases hp : (r2, c2) = (r, c)
  · have he1 : r2 = r := congrArg Prod.fst hp
    have he2 : c2 = c := congrArg Prod.snd hp
    subst he1
    subst he2
    rw [getCell_setCell_dims hd num (by simpa using hr2) (by simpa using hc2), hval]
  · have hkeep : getCell (setCell b r c num) r2 c2 = getCell b r2 c2 := by
      refine getCell_setCell_ne b r c num r2 c2 ?_
      by_cases hx : r2 = r
      · right; intro hy; exact hp (by rw [hx, hy])
      · left; exact hx
    rw [hkeep]
    rw [hkeep] at hnz
    exact hext r2 hr2 c2 hc2 hnz

theorem sbLoop_complete {n bs : Nat} (hbsq : bs * bs = n) (hbs : 0 < bs)
    (f : Board → Option (Bool × Board)) (r c : Nat) (F : Nat)
    (hfS : ∀ b2, Dims n b2 → countZeros n b2 < F → (f b2).isSome = true)
    (hfR : ∀ b2 b3, f b2 = some (false, b3) → b3 = b2)
    (hfC : ∀ b2, Dims n b2 → countZeros n b2 < F →
      (∃ s, Dims n s ∧ SolvedGrid n bs s ∧ BoardExtends n b2 s) →
      ∃ b3, f b2 = some (true, b3)) :
    ∀ (L : List Nat) (b s : Board), (∀ x ∈ L, x ≠ 0) →
      Dims n b → countZeros n b ≤ F → r < n → c < n → getCell b r c = 0 →
      Dims n s → SolvedGrid n bs s → BoardExtends n b s →
      getCell s r c ∈ L →
      ∃ b2, sbLoop f n bs r c L b = some (true, b2) := by
  intro L
  induction L with
  | nil => intro b s _ _ _ _ _ _ _ _ _ hmem; simp at hmem
  | cons num rest ih =>
    intro b s hL hd hcz hr hc hz hds hsol hext hmem
    simp only [sbLoop]
    by_cases hv : isValidPlacement n bs b r c num
    · rw [if_pos hv]
      have hnum : num ≠ 0 := hL num (List.mem_cons_self num rest)
      have hd1 : Dims n (setCell b r c num) := dims_setCell hd r c num
      have hcz1 : countZeros n (setCell b r c num) < F :=
        Nat.lt_of_lt_of_le (countZeros_setCell_lt hd hr hc hz hnum) hcz
      have hS := hfS _ hd1 hcz1
      cases hfb : f (setCell b r c num) with
      | none => rw [hfb] at hS; simp at hS
      | some x =>
        obtain ⟨bl1, bb⟩ := x
        cases bl1
        · simp only
          have hbb := hfR _ _ hfb
          rw [hbb, setCell_zero_cancel _ _ _ _ hz]
          have hne : num ≠ getCell s r c := by
            intro heqv
            obtain ⟨b3, h3⟩ := hfC (setCell b r c num) hd1 hcz1
              ⟨s, hds, hsol, boardExtends_place hd hr hc hext heqv.symm⟩
            rw [hfb] at h3
            simp at h3
          have hmem2 : getCell s r c ∈ rest := by
            rcases List.mem_cons.mp hmem with hmm | hmm
            · exact absurd hmm.symm hne
            · exact hmm
          exact ih b s (fun x hx => hL x (List.mem_cons_of_mem num hx)) hd hcz hr hc hz
            hds hsol hext hmem2
        · exact ⟨bb, rfl⟩
    · rw [if_neg hv]
      have hne : num ≠ getCell s r c := by
        intro heqv
        rw [heqv] at hv
        exact hv (placement_valid_of_solves hbsq hbs hd hds hsol hext hr hc hz)
      have hmem2 : getCell s r c ∈ rest := by
        rcases List.mem_cons.mp hmem with hmm | hmm
        · exact absurd hmm.symm hne
        · exact hmm
      exact ih b s (fun x hx => hL x (List.mem_cons_of_mem num hx)) hd hcz hr hc hz
        hds hsol hext hmem2

theorem solveBoardF_complete {n bs : Nat} (hbsq : bs * bs = n) (hbs : 0 < bs) :
    ∀ (fuel : Nat) (b : Board), Dims n b → countZeros n b < fuel →
      (∃ s, Dims n s ∧ SolvedGrid n bs s ∧ BoardExtends n b s) →
      ∃ b2, solveBoardF n bs fuel b = some (true, b2) := by
  intro fuel
  induction fuel with
  | zero => intro b _ h _; omega
  | succ fuel ih =>
    intro b hd hcz hex
    simp only [solveBoardF]
    cases hfe : findEmptyCell n b with
    | none => exact ⟨b, rfl⟩
    | some rc =>
      obtain ⟨r, c⟩ := rc
      obtain ⟨hr, hc, hz⟩ := findEmptyCell_some hfe
      obtain ⟨s, hds, hsol, hext⟩ := hex
      have hvr := solved_value_range hsol hr hc
      refine sbLoop_complete hbsq hbs _ r c fuel
        (fun bb hdb hzb => solveBoardF_isSome bs fuel bb hdb hzb)
        (fun bb bb2 hb => solveBoardF_restore n bs fuel bb bb2 hb)
        (fun bb hdb hzb hexb => ih bb hdb hzb hexb)
        (List.range' 1 n) b s
        (fun x hx => by have := List.mem_range'_1.mp hx; omega)
        hd (by omega) hr hc hz hds hsol hext ?_
      rw [List.mem_range'_1]
      omega

/-! ## Equivalence of the generation-time solve and the default strategy -/

theorem btMeasure_lt_btFuel (n r c : Nat) : btMeasure n r c < btFuel n := by
  unfold btMeasure btFuel
  have h1 : (n - r) * (n + 2) ≤ n * (n + 2) := Nat.mul_le_mul_right _ (Nat.sub_le n r)
  have h2 : (n + 1) * (n + 3) = n * (n + 2) + (2 * n + 3) := by ring
  omega

theorem btMeasure_pos {n c : Nat} (r : Nat) (hc : c ≤ n) : 1 ≤ btMeasure n r c := by
  unfold btMeasure
  have : 1 ≤ n + 1 - c := by omega
  omega

theorem earlierFilled_place {n : Nat} {b : Board} {r c num : Nat} (hd : Dims n b)
    (hr : r < n) (hc : c < n) (hnum : num ≠ 0) (he : earlierFilled n b r c) :
    earlierFilled n (setCell b r c num) r (c + 1) := by
  intro i hi j hj hlt
  by_cases hp : (i, j) = (r, c)
  · have he1 : i = r := congrArg Prod.fst hp
    have he2 : j = c := congrArg Prod.snd hp
    subst he1
    subst he2
    rw [getCell_setCell_dims hd num (by simpa using hi) (by simpa using hj)]
    exact hnum
  · have hkeep : getCell (setCell b r c num) i j = getCell b i j := by
      refine getCell_setCell_ne b r c num i j ?_
      by_cases hx : i = r
      · right; intro hy; exact hp (by rw [hx, hy])
      · left; exact hx
    rw [hkeep]
    refine he i hi j hj ?_
    rcases hlt with hlt | hlt
    · exact Or.inl hlt
    · obtain ⟨hir, hjc⟩ := hlt
      by_cases hjx : j = c
      · exact absurd (by rw [hir, hjx]) hp
      · exact Or.inr ⟨hir, by omega⟩

theorem earlierFilled_wrap {n : Nat} {b : Board} {r : Nat}
    (he : earlierFilled n b r n) : earlierFilled n b (r + 1) 0 := by
  intro i hi j hj hlt
  refine he i hi j hj ?_
  rcases hlt with hlt | hlt
  · by_cases hir : i = r
    · exact Or.inr ⟨hir, by simpa using hj⟩
    · exact Or.inl (by omega)
  · omega

theorem earlierFilled_skip {n : Nat} {b : Board} {r c : Nat}
    (he : earlierFilled n b r c) (hnz : getCell b r c ≠ 0) :
    earlierFilled n b r (c + 1) := by
  intro i hi j hj hlt
  rcases hlt with hlt | hlt
  · exact he i hi j hj (Or.inl hlt)
  · obtain ⟨hir, hjc⟩ := hlt
    by_cases hjx : j = c
    · subst hir; subst hjx; exact hnz
    · exact he i hi j hj (Or.inr ⟨hir, by omega⟩)

theorem earlierFilled_full {n : Nat} {b : Board} {r c : Nat} (hrn : r = n)
    (he : earlierFilled n b r c) : FullBoard n b := by
  intro i hi j hj
  refine he i hi j hj (Or.inl ?_)
  have : i < n := by simpa using hi
  omega

theorem equivAux {n bs : Nat} :
    ∀ (M : Nat) (b : Board) (r c f1 f2 s a : Nat),
      Dims n b → r ≤ n → c ≤ n → (c = n → r < n) → earlierFilled n b r c →
      btMeasure n r c < f1 → countZeros n b < f2 →
      countZeros n b * btFuel n + btMeasure n r c ≤ M →
      ∃ (bl : Bool) (b2 : Board) (s2 a2 : Nat),
        backtrackF n bs f1 r c ⟨b, s, a⟩ = some (bl, ⟨b2, s2, a2⟩) ∧
          solveBoardF n bs f2 b = some (bl, b2) := by
  intro M
  induction M with
  | zero =>
    intro b r c f1 f2 s a _ _ hc _ _ _ _ hM
    have := btMeasure_pos r hc
    omega
  | succ M ih =>
    intro b r c f1 f2 s a hd hr hc hcr he hf1 hf2 hM
    obtain ⟨f1p, rfl⟩ : ∃ k, f1 = k + 1 := ⟨f1 - 1, by omega⟩
    obtain ⟨f2p, rfl⟩ : ∃ k, f2 = k + 1 := ⟨f2 - 1, by omega⟩
    simp only [backtrackF]
    by_cases hcn : c = n
    · rw [if_pos hcn]
      have hrn : r < n := hcr hcn
      have hw := btMeasure_wrap hrn
      have hcc : btMeasure n r c = btMeasure n r n := by rw [hcn]
      have heW : earlierFilled n b r n := by rw [hcn] at he; exact he
      obtain ⟨bl, b2, s2, a2, h1, h2⟩ := ih b (r + 1) 0 f1p (f2p + 1) (s + 1) a
        hd (by omega) (by omega) (fun h0 => by omega) (earlierFilled_wrap heW)
        (by omega) hf2 (by omega)
      exact ⟨bl, b2, s2, a2, h1, h2⟩
    · rw [if_neg hcn]
      by_cases hrn : r = n
      · rw [if_pos hrn]
        have hfull := earlierFilled_full hrn he
        have hfe := findEmptyCell_eq_none_iff.mpr hfull
        refine ⟨true, b, s + 1, a, rfl, ?_⟩
        simp only [solveBoardF]
        rw [hfe]
      · rw [if_neg hrn]
        have hcn2 : c < n := by omega
        have hrn2 : r < n := by omega
        have hstep := btMeasure_step r hcn2
        by_cases hnz : getCell b r c ≠ 0
        · rw [if_pos hnz]
          obtain ⟨bl, b2, s2, a2, h1, h2⟩ := ih b r (c + 1) f1p (f2p + 1) (s + 1) a
            hd (by omega) (by omega) (fun _ => hrn2) (earlierFilled_skip he hnz)
            (by omega) hf2 (by omega)
          exact ⟨bl, b2, s2, a2, h1, h2⟩
        · rw [if_neg hnz]
          push_neg at hnz
          have hfe := findEmptyCell_eq_first hrn2 hcn2 hnz he
          have hrel : ∀ (num : Nat), num ≠ 0 → ∀ s3 a3 : Nat,
              ∃ (bl : Bool) (b2 : Board) (s2 a2 : Nat),
                backtrackF n bs f1p r (c + 1) ⟨setCell b r c num, s3, a3⟩ =
                    some (bl, ⟨b2, s2, a2⟩) ∧
                  solveBoardF n bs f2p (setCell b r c num) = some (bl, b2) := by
            intro num hnum s3 a3
            have hd1 : Dims n (setCell b r c num) := dims_setCell hd r c num
            have hcz1 : countZeros n (setCell b r c num) < countZeros n b :=
              countZeros_setCell_lt hd hrn2 hcn2 hnz hnum
            have hfb := btMeasure_lt_btFuel n r (c + 1)
            have hmul : (countZeros n b - 1 + 1) * btFuel n =
                (countZeros n b - 1) * btFuel n + btFuel n := by ring
            have hmul2 : countZeros n (setCell b r c num) * btFuel n ≤
                (countZeros n b - 1) * btFuel n :=
              Nat.mul_le_mul_right _ (by omega)
            have hczb : countZeros n b - 1 + 1 = countZeros n b := by omega
            rw [hczb] at hmul
            exact ih (setCell b r c num) r (c + 1) f1p f2p s3 a3 hd1 (by omega) (by omega)
              (fun _ => hrn2) (earlierFilled_place hd hrn2 hcn2 hnum he)
              (by omega) (by omega) (by omega)
          have hloop : ∀ (L : List Nat), (∀ x ∈ L, x ≠ 0) → ∀ s3 a3 : Nat,
              ∃ (bl : Bool) (b2 : Board) (s2 a2 : Nat),
                tryNums (fun st2 => backtrackF n bs f1p r (c + 1) st2) n bs r c L
                    ⟨b, s3, a3⟩ = some (bl, ⟨b2, s2, a2⟩) ∧
                  sbLoop (fun bb => solveBoardF n bs f2p bb) n bs r c L b =
                    some (bl, b2) := by
            intro L
            induction L with
            | nil =>
              intro _ s3 a3
              exact ⟨false, b, s3, a3, rfl, rfl⟩
            | cons num rest ihL =>
              intro hL s3 a3
              simp only [tryNums, sbLoop]
              by_cases hv : isValidPlacement n bs b r c num
              · rw [if_pos hv, if_pos hv]
                obtain ⟨blc, bc, sc, ac, hc1, hc2⟩ :=
                  hrel num (hL num (List.mem_cons_self num rest)) s3 (a3 + 1)
                rw [hc1, hc2]
                cases blc
                · have hbc : bc = setCell b r c num :=
                    solveBoardF_restore n bs f2p _ _ hc2
                  have hundo : setCell bc r c 0 = b := by
                    rw [hbc, setCell_zero_cancel _ _ _ _ hnz]
                  simp only [hundo]
                  exact ihL (fun x hx => hL x (List.mem_cons_of_mem num hx)) sc ac
                · exact ⟨true, bc, sc, ac, rfl, rfl⟩
              · rw [if_neg hv, if_neg hv]
                exact ihL (fun x hx => hL x (List.mem_cons_of_mem num hx)) s3 a3
          obtain ⟨bl, b2, s2, a2, h1, h2⟩ := hloop (List.range' 1 n)
            (fun x hx => by have := List.mem_range'_1.mp hx; omega) (s + 1) a
          refine ⟨bl, b2, s2, a2, h1, ?_⟩
          simp only [solveBoardF]
          rw [hfe]
          exact h2

theorem earlierFilled_start (n : Nat) (b : Board) : earlierFilled n b 0 0 := by
  intro i _ j _ hlt
  rcases hlt with hlt | hlt
  · omega
  · omega

/-- C6: run on the same partial grid (with conforming dimensions), the
generation-time solve (`solveBoard`) and the default backtracking strategy
(`bruteForceSolver`) report the same outcome and leave the same grid. -/
theorem claim_C6 (n bs : Nat) (b : Board) (s a : Nat) (hn : 0 < n) (hd : Dims n b) :
    ∃ (bl : Bool) (b2 : Board) (st2 : SState),
      solveBoardRun n bs b = some (bl, b2) ∧
        backtrackRun n bs ⟨b, s, a⟩ = some (bl, st2) ∧ st2.board = b2 := by
  obtain ⟨bl, b2, s2, a2, h1, h2⟩ := equivAux
    (countZeros n b * btFuel n + btMeasure n 0 0) b 0 0 (btFuel n) (countZeros n b + 1) s a
    hd (Nat.zero_le n) (Nat.zero_le n) (fun h0 => by omega) (earlierFilled_start n b)
    (btMeasure_lt_btFuel n 0 0) (by omega) (Nat.le_refl _)
  exact ⟨bl, b2, ⟨b2, s2, a2⟩, h2, h1, rfl⟩

theorem claim_C6_witness :
    (0 : Nat) < 4 ∧ Dims 4 [[1, 2, 3, 4], [3, 4, 1, 2], [2, 1, 4, 3], [4, 3, 0, 0]] ∧
      ∃ (bl : Bool) (b2 : Board) (st2 : SState),
        solveBoardRun 4 2 [[1, 2, 3, 4], [3, 4, 1, 2], [2, 1, 4, 3], [4, 3, 0, 0]] =
            some (bl, b2) ∧
          backtrackRun 4 2 ⟨[[1, 2, 3, 4], [3, 4, 1, 2], [2, 1, 4, 3], [4, 3, 0, 0]], 0, 0⟩ =
              some (bl, st2) ∧ st2.board = b2 :=
  ⟨by decide, by decide,
    claim_C6 4 2 [[1, 2, 3, 4], [3, 4, 1, 2], [2, 1, 4, 3], [4, 3, 0, 0]] 0 0
      (by decide) (by decide)⟩

/-- C7 counterexample: on a fully filled but invalid grid (all cells 2)
the solver terminates with success, yet the grid is not a valid solved
state, so "success implies a valid solved grid" fails without a premise on
the given digits. -/
theorem claim_C7_counterexample :
    backtrackRun 4 2 ⟨[[2, 2, 2, 2], [2, 2, 2, 2], [2, 2, 2, 2], [2, 2, 2, 2]], 0, 0⟩ =
        some (true, ⟨[[2, 2, 2, 2], [2, 2, 2, 2], [2, 2, 2, 2], [2, 2, 2, 2]], 21, 0⟩) ∧
      ¬ SolvedGrid 4 2 [[2, 2, 2, 2], [2, 2, 2, 2], [2, 2, 2, 2], [2, 2, 2, 2]] := by
  constructor
  · decide
  · decide

/-- C7 (amended): for every well-formed grid (conforming dimensions,
entries in `[0, n]`, no nonzero value repeated in a row, column or box)
of a size with an integer square root, the backtracking solver terminates
and returns a definite boolean: on success the final grid is a valid
solved grid extending the given digits, and on failure no valid solved
grid extending the given partial state exists. -/
theorem claim_C7 (n bs : Nat) (b : Board) (s a : Nat) (hbsq : bs * bs = n) (hbs : 0 < bs)
    (hd : Dims n b) (he : EntriesLE n b) (hnr : NoRepeats n bs b) :
    ∃ (bl : Bool) (st2 : SState),
      backtrackRun n bs ⟨b, s, a⟩ = some (bl, st2) ∧
        (bl = true → SolvedGrid n bs st2.board ∧ BoardExtends n b st2.board) ∧
        (bl = false → ¬ ∃ s2, Dims n s2 ∧ SolvedGrid n bs s2 ∧ BoardExtends n b s2) := by
  have hn : 0 < n := by
    have := Nat.mul_pos hbs hbs
    omega
  obtain ⟨bl, b2, s2, a2, h1, h2⟩ := equivAux
    (countZeros n b * btFuel n + btMeasure n 0 0) b 0 0 (btFuel n) (countZeros n b + 1) s a
    hd (Nat.zero_le n) (Nat.zero_le n) (fun h0 => by omega) (earlierFilled_start n b)
    (btMeasure_lt_btFuel n 0 0) (by omega) (Nat.le_refl _)
  refine ⟨bl, ⟨b2, s2, a2⟩, h1, ?_, ?_⟩
  · rintro rfl
    constructor
    · obtain ⟨hd2, he2, hnr2, hf2⟩ := solveBoardF_sound hbs (countZeros n b + 1) b b2
        hd he hnr h2
      exact solved_of_full hbsq hbs he2 hnr2 hf2
    · intro r2 hr2 c2 hc2 hnz
      exact backtrackF_frame n bs (btFuel n) 0 0 ⟨b, s, a⟩ true ⟨b2, s2, a2⟩ h1 r2 c2 hnz
  · rintro rfl
    rintro ⟨sG, hds, hsol, hext⟩
    obtain ⟨b3, h3⟩ := solveBoardF_complete hbsq hbs (countZeros n b + 1) b hd (by omega)
      ⟨sG, hds, hsol, hext⟩
    rw [h2] at h3
    simp at h3

theorem claim_C7_witness :
    (2 : Nat) * 2 = 4 ∧ NoRepeats 4 2 [[1, 2, 3, 4], [3, 4, 1, 2], [0, 0, 4, 3], [4, 3, 2, 1]] ∧
      ∃ (bl : Bool) (st2 : SState),
        backtrackRun 4 2 ⟨[[1, 2, 3, 4], [3, 4, 1, 2], [0, 0, 4, 3], [4, 3, 2, 1]], 0, 0⟩ =
            some (bl, st2) ∧
          (bl = true → SolvedGrid 4 2 st2.board ∧
            BoardExtends 4 [[1, 2, 3, 4], [3, 4, 1, 2], [0, 0, 4, 3], [4, 3, 2, 1]] st2.board) ∧
          (bl = false → ¬ ∃ s2, Dims 4 s2 ∧ SolvedGrid 4 2 s2 ∧
            BoardExtends 4 [[1, 2, 3, 4], [3, 4, 1, 2], [0, 0, 4, 3], [4, 3, 2, 1]] s2) :=
  ⟨by decide, by decide,
    claim_C7 4 2 [[1, 2, 3, 4], [3, 4, 1, 2], [0, 0, 4, 3], [4, 3, 2, 1]] 0 0
      (by decide) (by decide) (by decide) (by decide) (by decide)⟩
